import Mathlib

/-!
Verification of the steam-authenticator-linux code base against its
natural-language specification.  The Python sources are shallowly embedded:
bytes are `Nat`s below 256, byte strings are `List Nat`, text strings are
`List Char`, machine words are `Nat` with explicit `% 2^w` reductions, and
fallible code returns `Option`.  Network interaction is modelled by passing
the relevant server responses as an explicit list (a "script") consumed one
response per request.
-/

set_option maxHeartbeats 1000000
set_option maxRecDepth 100000

namespace SteamAuth

/-! ## Byte-level primitives -/

/-- Big-endian byte serialisation, `int.to_bytes(n, byteorder='big')`.
Produces exactly `n` bytes; callers must separately ensure `v < 256^n`
(Python raises `OverflowError` otherwise, which the embeddings of the
callers surface as `Option.none` or a caught-exception result). -/
def toBytesBE : Nat → Nat → List Nat
  | 0, _ => []
  | n + 1, v => toBytesBE n (v / 256) ++ [v % 256]

/-- Little-endian byte serialisation, `struct.pack('<Q', v)` style. -/
def toBytesLE : Nat → Nat → List Nat
  | 0, _ => []
  | n + 1, v => v % 256 :: toBytesLE n (v / 256)

/-- Big-endian byte deserialisation, `int.from_bytes(l, byteorder='big')`. -/
def fromBytesBE (l : List Nat) : Nat := l.foldl (fun acc b => acc * 256 + b) 0

/-- Pointwise xor of two byte strings (truncating to the shorter). -/
def zipXor (a b : List Nat) : List Nat := List.zipWith (· ^^^ ·) a b

/-- Split a list into consecutive chunks of `n` elements (the last chunk may
be shorter).  Returns `[]` when `n = 0`. -/
def chunksOf (n : Nat) (l : List α) : List (List α) :=
  match n, l with
  | _, [] => []
  | 0, _ :: _ => []
  | n + 1, a :: rest =>
    (a :: rest).take (n + 1) :: chunksOf (n + 1) ((a :: rest).drop (n + 1))
termination_by l.length
decreasing_by
  simp only [List.length_drop, List.length_cons]
  omega

theorem toBytesBE_length (n v : Nat) : (toBytesBE n v).length = n := by
  induction n generalizing v with
  | zero => rfl
  | succ k ih => simp [toBytesBE, ih]

theorem toBytesBE_lt (n v : Nat) : ∀ b ∈ toBytesBE n v, b < 256 := by
  induction n generalizing v with
  | zero => simp [toBytesBE]
  | succ k ih =>
    intro b hb
    simp only [toBytesBE, List.mem_append, List.mem_singleton] at hb
    rcases hb with hb | hb
    · exact ih _ b hb
    · omega

theorem toBytesLE_length (n v : Nat) : (toBytesLE n v).length = n := by
  induction n generalizing v with
  | zero => rfl
  | succ k ih => simp [toBytesLE, ih]

theorem toBytesLE_lt (n v : Nat) : ∀ b ∈ toBytesLE n v, b < 256 := by
  induction n generalizing v with
  | zero => simp [toBytesLE]
  | succ k ih =>
    intro b hb
    simp only [toBytesLE, List.mem_cons] at hb
    rcases hb with hb | hb
    · omega
    · exact ih _ b hb

theorem toBytesLE_getD (n v : Nat) (i : Nat) (hi : i < n) :
    (toBytesLE n v).getD i 0 = v / 256 ^ i % 256 := by
  induction n generalizing v i with
  | zero => omega
  | succ k ih =>
    cases i with
    | zero => simp [toBytesLE]
    | succ j =>
      have := ih (v / 256) j (by omega)
      simp only [toBytesLE, List.getD_cons_succ, this, Nat.div_div_eq_div_mul]
      ring_nf

theorem zipXor_length (a b : List Nat) :
    (zipXor a b).length = min a.length b.length := by
  simp [zipXor]

theorem zipXor_zipXor (a b : List Nat) (h : a.length ≤ b.length) :
    zipXor (zipXor a b) b = a := by
  induction a generalizing b with
  | nil => simp [zipXor]
  | cons x xs ih =>
    cases b with
    | nil => simp at h
    | cons y ys =>
      simp only [zipXor, List.zipWith_cons_cons, List.cons.injEq]
      constructor
      · exact Nat.xor_cancel_right y x
      · exact ih ys (by simpa using h)

theorem zipXor_lt (a b : List Nat) (ha : ∀ x ∈ a, x < 256)
    (hb : ∀ x ∈ b, x < 256) : ∀ x ∈ zipXor a b, x < 256 := by
  induction a generalizing b with
  | nil => simp [zipXor]
  | cons x xs ih =>
    cases b with
    | nil => simp [zipXor]
    | cons y ys =>
      intro z hz
      simp only [zipXor, List.zipWith_cons_cons, List.mem_cons] at hz
      rcases hz with hz | hz
      · subst hz
        have hx : x < 2 ^ 8 := ha x (by simp)
        have hy : y < 2 ^ 8 := hb y (by simp)
        exact Nat.xor_lt_two_pow hx hy
      · exact ih ys (fun u hu => ha u (by simp [hu]))
          (fun u hu => hb u (by simp [hu])) z hz

/-! ## Base64 (`base64.b64encode` / `base64.b64decode`)

Standard-alphabet base64 as used throughout the code base.  The decoder
embeds `base64.b64decode` on valid inputs (length a multiple of four,
alphabet characters, `=` padding only at the end); like Python it does not
reject non-canonical trailing bits.  Invalid input decodes to `none`
(Python raises `binascii.Error`). -/

def base64Chars : List Char :=
  "ABCDEFGHIJKLMNOPQRSTUVWXYZabcdefghijklmnopqrstuvwxyz0123456789+/".toList

/-- The alphabet character for a 6-bit value. -/
def b64Chr (i : Nat) : Char := base64Chars.getD i 'A'

/-- Index of a character in the base64 alphabet. -/
def b64Index (c : Char) : Option Nat :=
  b64IndexAux base64Chars c 0
where b64IndexAux : List Char → Char → Nat → Option Nat
  | [], _, _ => none
  | a :: rest, c, i => if a = c then some i else b64IndexAux rest c (i + 1)

def b64encode : List Nat → List Char
  | [] => []
  | [a] => [b64Chr (a / 4), b64Chr (a % 4 * 16), '=', '=']
  | [a, b] => [b64Chr (a / 4), b64Chr (a % 4 * 16 + b / 16), b64Chr (b % 16 * 4), '=']
  | a :: b :: c :: rest =>
    b64Chr (a / 4) :: b64Chr (a % 4 * 16 + b / 16) :: b64Chr (b % 16 * 4 + c / 64) ::
      b64Chr (c % 64) :: b64encode rest

def b64decode : List Char → Option (List Nat)
  | [] => some []
  | c1 :: c2 :: c3 :: c4 :: rest =>
    match b64Index c1, b64Index c2 with
    | some s1, some s2 =>
      if c3 = '=' then
        if c4 = '=' ∧ rest = [] then some [s1 * 4 + s2 / 16] else none
      else
        match b64Index c3 with
        | some s3 =>
          if c4 = '=' then
            if rest = [] then some [s1 * 4 + s2 / 16, s2 % 16 * 16 + s3 / 4] else none
          else
            match b64Index c4 with
            | some s4 =>
              (b64decode rest).map fun tl =>
                (s1 * 4 + s2 / 16) :: (s2 % 16 * 16 + s3 / 4) :: (s3 % 4 * 64 + s4) :: tl
            | none => none
        | none => none
    | _, _ => none
  | _ => none

theorem b64Index_b64Chr : ∀ i < 64, b64Index (b64Chr i) = some i := by decide

theorem b64Chr_ne_eq : ∀ i < 64, b64Chr i ≠ '=' := by decide

/-- Base64 round-trip: decoding an encoded byte string gives it back. -/
theorem b64decode_b64encode (l : List Nat) (hl : ∀ b ∈ l, b < 256) :
    b64decode (b64encode l) = some l := by
  induction l using b64encode.induct with
  | case1 => simp [b64encode, b64decode]
  | case2 a =>
    have ha : a < 256 := hl a (by simp)
    have h1 : a / 4 < 64 := by omega
    have h2 : a % 4 * 16 < 64 := by omega
    simp only [b64encode, b64decode, b64Index_b64Chr _ h1, b64Index_b64Chr _ h2]
    simp
    omega
  | case3 a b =>
    have ha : a < 256 := hl a (by simp)
    have hb : b < 256 := hl b (by simp)
    have h1 : a / 4 < 64 := by omega
    have h2 : a % 4 * 16 + b / 16 < 64 := by omega
    have h3 : b % 16 * 4 < 64 := by omega
    simp only [b64encode, b64decode, b64Index_b64Chr _ h1, b64Index_b64Chr _ h2,
      b64Chr_ne_eq _ h3, b64Index_b64Chr _ h3, if_false, if_true]
    simp
    omega
  | case4 a b c rest ih =>
    have ha : a < 256 := hl a (by simp)
    have hb : b < 256 := hl b (by simp)
    have hc : c < 256 := hl c (by simp)
    have h1 : a / 4 < 64 := by omega
    have h2 : a % 4 * 16 + b / 16 < 64 := by omega
    have h3 : b % 16 * 4 + c / 64 < 64 := by omega
    have h4 : c % 64 < 64 := by omega
    have ih' := ih (fun x hx => hl x (by simp [hx]))
    simp only [b64encode, b64decode, b64Index_b64Chr _ h1, b64Index_b64Chr _ h2,
      b64Chr_ne_eq _ h3, b64Index_b64Chr _ h3, b64Chr_ne_eq _ h4, b64Index_b64Chr _ h4,
      if_false, ih', Option.map_some]
    simp
    omega

/-! ## SHA-1 (`hashlib.sha1`), SHA-256, HMAC (`hmac.new`) and PBKDF2

Executable embeddings of the hash primitives the code base calls through
`hashlib`, `hmac` and `cryptography`'s `PBKDF2HMAC`, following FIPS 180-4,
FIPS 198-1 and RFC 8018.  Words are `Nat` with explicit `% 2^32`. -/

/-- Left-rotation of a 32-bit word (input assumed `< 2^32`). -/
def rotl32 (x n : Nat) : Nat := (x * 2 ^ n) % 2 ^ 32 ||| x / 2 ^ (32 - n)

/-- Merkle–Damgård padding shared by SHA-1 and SHA-256: append `0x80`, zero
bytes, and the 64-bit big-endian bit length, to a multiple of 64 bytes. -/
def shaPad (msg : List Nat) : List Nat :=
  msg ++ [0x80] ++ List.replicate ((64 - (msg.length + 9) % 64) % 64) 0 ++
    toBytesBE 8 (msg.length * 8)

/-- The 80-entry SHA-1 message schedule from one 64-byte block. -/
def sha1Schedule (block : List Nat) : List Nat :=
  (List.range 80).foldl
    (fun w t =>
      if t < 16 then w ++ [fromBytesBE (block.drop (4 * t) |>.take 4)]
      else w ++ [rotl32 (w.getD (t - 3) 0 ^^^ w.getD (t - 8) 0 ^^^
        w.getD (t - 14) 0 ^^^ w.getD (t - 16) 0) 1])
    []

/-- SHA-1 round function `f_t`. -/
def sha1F (t b c d : Nat) : Nat :=
  if t < 20 then b &&& c ||| (b ^^^ 0xFFFFFFFF) &&& d
  else if t < 40 then b ^^^ c ^^^ d
  else if t < 60 then b &&& c ||| b &&& d ||| c &&& d
  else b ^^^ c ^^^ d

/-- SHA-1 round constant `K_t`. -/
def sha1K (t : Nat) : Nat :=
  if t < 20 then 0x5A827999
  else if t < 40 then 0x6ED9EBA1
  else if t < 60 then 0x8F1BBCDC
  else 0xCA62C1D6

/-- One SHA-1 compression of a 64-byte block into the 5-word state. -/
def sha1Compress (h : List Nat) (block : List Nat) : List Nat :=
  let w := sha1Schedule block
  let s := (List.range 80).foldl
    (fun s t =>
      match s with
      | (a, b, c, d, e) =>
        ((rotl32 a 5 + sha1F t b c d + e + sha1K t + w.getD t 0) % 2 ^ 32,
          a, rotl32 b 30, c, d))
    (h.getD 0 0, h.getD 1 0, h.getD 2 0, h.getD 3 0, h.getD 4 0)
  match s with
  | (a, b, c, d, e) =>
    [(h.getD 0 0 + a) % 2 ^ 32, (h.getD 1 0 + b) % 2 ^ 32, (h.getD 2 0 + c) % 2 ^ 32,
      (h.getD 3 0 + d) % 2 ^ 32, (h.getD 4 0 + e) % 2 ^ 32]

/-- SHA-1 of a byte string, as a 20-byte digest. -/
def sha1 (msg : List Nat) : List Nat :=
  ((chunksOf 64 (shaPad msg)).foldl sha1Compress
    [0x67452301, 0xEFCDAB89, 0x98BADCFE, 0x10325476, 0xC3D2E1F0]).flatMap
    (toBytesBE 4)

/-- Right-rotation of a 32-bit word (input assumed `< 2^32`). -/
def rotr32 (x n : Nat) : Nat := x / 2 ^ n ||| x * 2 ^ (32 - n) % 2 ^ 32

/-- The 64 SHA-256 round constants. -/
def sha256K : List Nat :=
  [
   1116352408, 1899447441, 3049323471, 3921009573,
   961987163, 1508970993, 2453635748, 2870763221,
   3624381080, 310598401, 607225278, 1426881987,
   1925078388, 2162078206, 2614888103, 3248222580,
   3835390401, 4022224774, 264347078, 604807628,
   770255983, 1249150122, 1555081692, 1996064986,
   2554220882, 2821834349, 2952996808, 3210313671,
   3336571891, 3584528711, 113926993, 338241895,
   666307205, 773529912, 1294757372, 1396182291,
   1695183700, 1986661051, 2177026350, 2456956037,
   2730485921, 2820302411, 3259730800, 3345764771,
   3516065817, 3600352804, 4094571909, 275423344,
   430227734, 506948616, 659060556, 883997877,
   958139571, 1322822218, 1537002063, 1747873779,
   1955562222, 2024104815, 2227730452, 2361852424,
   2428436474, 2756734187, 3204031479, 3329325298]

/-- The 64-entry SHA-256 message schedule from one 64-byte block. -/
def sha256Schedule (block : List Nat) : List Nat :=
  (List.range 64).foldl
    (fun w t =>
      if t < 16 then w ++ [fromBytesBE (block.drop (4 * t) |>.take 4)]
      else
        let w15 := w.getD (t - 15) 0
        let w2 := w.getD (t - 2) 0
        let s0 := rotr32 w15 7 ^^^ rotr32 w15 18 ^^^ w15 / 2 ^ 3
        let s1 := rotr32 w2 17 ^^^ rotr32 w2 19 ^^^ w2 / 2 ^ 10
        w ++ [(w.getD (t - 16) 0 + s0 + w.getD (t - 7) 0 + s1) % 2 ^ 32])
    []

/-- One SHA-256 compression of a 64-byte block into the 8-word state. -/
def sha256Compress (h : List Nat) (block : List Nat) : List Nat :=
  let w := sha256Schedule block
  let s := (List.range 64).foldl
    (fun s t =>
      match s with
      | (a, b, c, d, e, f, g, hh) =>
        let bs1 := rotr32 e 6 ^^^ rotr32 e 11 ^^^ rotr32 e 25
        let ch := e &&& f ^^^ (e ^^^ 0xFFFFFFFF) &&& g
        let t1 := (hh + bs1 + ch + sha256K.getD t 0 + w.getD t 0) % 2 ^ 32
        let bs0 := rotr32 a 2 ^^^ rotr32 a 13 ^^^ rotr32 a 22
        let maj := a &&& b ^^^ a &&& c ^^^ b &&& c
        let t2 := (bs0 + maj) % 2 ^ 32
        ((t1 + t2) % 2 ^ 32, a, b, c, (d + t1) % 2 ^ 32, e, f, g))
    (h.getD 0 0, h.getD 1 0, h.getD 2 0, h.getD 3 0, h.getD 4 0, h.getD 5 0,
      h.getD 6 0, h.getD 7 0)
  match s with
  | (a, b, c, d, e, f, g, hh) =>
    [(h.getD 0 0 + a) % 2 ^ 32, (h.getD 1 0 + b) % 2 ^ 32, (h.getD 2 0 + c) % 2 ^ 32,
      (h.getD 3 0 + d) % 2 ^ 32, (h.getD 4 0 + e) % 2 ^ 32, (h.getD 5 0 + f) % 2 ^ 32,
      (h.getD 6 0 + g) % 2 ^ 32, (h.getD 7 0 + hh) % 2 ^ 32]

/-- SHA-256 of a byte string, as a 32-byte digest. -/
def sha256 (msg : List Nat) : List Nat :=
  ((chunksOf 64 (shaPad msg)).foldl sha256Compress
    [0x6a09e667, 0xbb67ae85, 0x3c6ef372, 0xa54ff53a,
     0x510e527f, 0x9b05688c, 0x1f83d9ab, 0x5be0cd19]).flatMap
    (toBytesBE 4)

/-- HMAC (FIPS 198-1) with a 64-byte block size, generic in the hash. -/
def hmacGen (hash : List Nat → List Nat) (key msg : List Nat) : List Nat :=
  let key' := if 64 < key.length then hash key else key
  let kpad := key' ++ List.replicate (64 - key'.length) 0
  hash ((kpad.map (· ^^^ 0x5c)) ++ hash ((kpad.map (· ^^^ 0x36)) ++ msg))

/-- HMAC-SHA1, `hmac.new(key, msg, hashlib.sha1).digest()`. -/
def hmacSha1 (key msg : List Nat) : List Nat := hmacGen sha1 key msg

/-- HMAC-SHA256. -/
def hmacSha256 (key msg : List Nat) : List Nat := hmacGen sha256 key msg

/-- The `U_2 … U_c` chain of one PBKDF2 block (RFC 8018 §5.2). -/
def pbkdf2Chain (prf : List Nat → List Nat → List Nat) (pw : List Nat) :
    Nat → List Nat → List Nat → List Nat
  | 0, _, t => t
  | n + 1, u, t =>
    pbkdf2Chain prf pw n (prf pw u) (zipXor t (prf pw u))

/-- One PBKDF2 output block `T_i = U_1 ^^^ ⋯ ^^^ U_c`. -/
def pbkdf2Block (prf : List Nat → List Nat → List Nat) (pw salt : List Nat)
    (c i : Nat) : List Nat :=
  pbkdf2Chain prf pw (c - 1) (prf pw (salt ++ toBytesBE 4 i))
    (prf pw (salt ++ toBytesBE 4 i))

/-- PBKDF2 (RFC 8018): `hLen` is the PRF output length in bytes. -/
def pbkdf2 (prf : List Nat → List Nat → List Nat) (hLen : Nat)
    (pw salt : List Nat) (c dkLen : Nat) : List Nat :=
  (((List.range ((dkLen + hLen - 1) / hLen)).map
    (fun j => pbkdf2Block prf pw salt c (j + 1))).flatten).take dkLen

theorem flatMap_toBytesBE_length (n : Nat) (ws : List Nat) :
    (ws.flatMap (toBytesBE n)).length = n * ws.length := by
  induction ws with
  | nil => simp
  | cons w ws ih => simp [ih, toBytesBE_length]; ring

theorem flatMap_toBytesBE_lt (n : Nat) (ws : List Nat) :
    ∀ b ∈ ws.flatMap (toBytesBE n), b < 256 := by
  intro b hb
  rw [List.mem_flatMap] at hb
  obtain ⟨w, _, hbw⟩ := hb
  exact toBytesBE_lt n w b hbw

theorem sha1_length (msg : List Nat) : (sha1 msg).length = 20 := by
  have key : ∀ (bs : List (List Nat)) (h : List Nat), h.length = 5 →
      (bs.foldl sha1Compress h).length = 5 := by
    intro bs
    induction bs with
    | nil => intro h hh; simpa using hh
    | cons b bs ih => intro h _; exact ih (sha1Compress h b) rfl
  have := key (chunksOf 64 (shaPad msg))
    [0x67452301, 0xEFCDAB89, 0x98BADCFE, 0x10325476, 0xC3D2E1F0] rfl
  simp only [sha1]
  rw [flatMap_toBytesBE_length, this]

theorem sha1_lt (msg : List Nat) : ∀ b ∈ sha1 msg, b < 256 := by
  intro b hb
  exact flatMap_toBytesBE_lt 4 _ b hb

theorem sha256_length (msg : List Nat) : (sha256 msg).length = 32 := by
  have key : ∀ (bs : List (List Nat)) (h : List Nat), h.length = 8 →
      (bs.foldl sha256Compress h).length = 8 := by
    intro bs
    induction bs with
    | nil => intro h hh; simpa using hh
    | cons b bs ih => intro h _; exact ih (sha256Compress h b) rfl
  have := key (chunksOf 64 (shaPad msg))
    [0x6a09e667, 0xbb67ae85, 0x3c6ef372, 0xa54ff53a,
     0x510e527f, 0x9b05688c, 0x1f83d9ab, 0x5be0cd19] rfl
  simp only [sha256]
  rw [flatMap_toBytesBE_length, this]

theorem sha256_lt (msg : List Nat) : ∀ b ∈ sha256 msg, b < 256 := by
  intro b hb
  exact flatMap_toBytesBE_lt 4 _ b hb

theorem hmacSha1_length (key msg : List Nat) : (hmacSha1 key msg).length = 20 :=
  sha1_length _

theorem hmacSha1_lt (key msg : List Nat) : ∀ b ∈ hmacSha1 key msg, b < 256 :=
  sha1_lt _

theorem hmacSha256_length (key msg : List Nat) : (hmacSha256 key msg).length = 32 :=
  sha256_length _

theorem hmacSha256_lt (key msg : List Nat) : ∀ b ∈ hmacSha256 key msg, b < 256 :=
  sha256_lt _

theorem pbkdf2Chain_length (prf : List Nat → List Nat → List Nat) (pw : List Nat)
    (hLen : Nat) (hprf : ∀ k m, (prf k m).length = hLen) :
    ∀ (n : Nat) (u t : List Nat), t.length = hLen →
      (pbkdf2Chain prf pw n u t).length = hLen := by
  intro n
  induction n with
  | zero => intro u t ht; simpa [pbkdf2Chain] using ht
  | succ k ih =>
    intro u t ht
    exact ih (prf pw u) _ (by simp [zipXor_length, ht, hprf])

theorem pbkdf2Chain_lt (prf : List Nat → List Nat → List Nat) (pw : List Nat)
    (hprf : ∀ k m, ∀ b ∈ prf k m, b < 256) :
    ∀ (n : Nat) (u t : List Nat), (∀ b ∈ t, b < 256) →
      ∀ b ∈ pbkdf2Chain prf pw n u t, b < 256 := by
  intro n
  induction n with
  | zero => intro u t ht; simpa [pbkdf2Chain] using ht
  | succ k ih =>
    intro u t ht
    exact ih (prf pw u) _ (zipXor_lt _ _ ht (hprf pw u))

theorem pbkdf2_length (prf : List Nat → List Nat → List Nat) (hLen : Nat)
    (pw salt : List Nat) (c dkLen : Nat) (hpos : 0 < hLen)
    (hprf : ∀ k m, (prf k m).length = hLen) :
    (pbkdf2 prf hLen pw salt c dkLen).length = dkLen := by
  have hblock : ∀ i, (pbkdf2Block prf pw salt c i).length = hLen := by
    intro i
    exact pbkdf2Chain_length prf pw hLen hprf _ _ _ (hprf _ _)
  have hflat : (((List.range ((dkLen + hLen - 1) / hLen)).map
      (fun j => pbkdf2Block prf pw salt c (j + 1))).flatten).length =
      (dkLen + hLen - 1) / hLen * hLen := by
    rw [List.length_flatten]
    have hmap : ((List.range ((dkLen + hLen - 1) / hLen)).map
        (fun j => pbkdf2Block prf pw salt c (j + 1))).map List.length =
        List.replicate ((dkLen + hLen - 1) / hLen) hLen := by
      refine List.eq_replicate_iff.mpr ⟨by simp, ?_⟩
      intro b hb
      simp only [List.map_map, List.mem_map, Function.comp] at hb
      obtain ⟨j, _, rfl⟩ := hb
      exact hblock (j + 1)
    rw [hmap, List.sum_replicate, smul_eq_mul]
  have hlt : dkLen + hLen - 1 < ((dkLen + hLen - 1) / hLen + 1) * hLen :=
    (Nat.div_lt_iff_lt_mul hpos).mp (Nat.lt_succ_self _)
  have hexp : ((dkLen + hLen - 1) / hLen + 1) * hLen =
      (dkLen + hLen - 1) / hLen * hLen + hLen := by ring
  simp [pbkdf2, List.length_take, hflat]
  omega

theorem pbkdf2_lt (prf : List Nat → List Nat → List Nat) (hLen : Nat)
    (pw salt : List Nat) (c dkLen : Nat)
    (hprf : ∀ k m, ∀ b ∈ prf k m, b < 256) :
    ∀ b ∈ pbkdf2 prf hLen pw salt c dkLen, b < 256 := by
  intro b hb
  have hb' := List.mem_of_mem_take hb
  rw [List.mem_flatten] at hb'
  obtain ⟨blk, hblk, hbblk⟩ := hb'
  rw [List.mem_map] at hblk
  obtain ⟨j, _, rfl⟩ := hblk
  exact pbkdf2Chain_lt prf pw hprf _ _ _ (hprf _ _) b hbblk

/-! ## Steam Guard codes (`steam_guard.py`, `account_linker.py`, `steam_api.py`) -/

def STEAM_GUARD_CODE_CHARS : List Char := "23456789BCDFGHJKMNPQRTVWXY".toList

/-- The five-iteration character loop of `generate_steam_guard_code` /
`_generate_auth_code`: repeatedly index the alphabet with
`code_int % len(chars)` and divide `code_int` by `len(chars)`. -/
def guardCodeChars : Nat → Nat → List Char
  | _, 0 => []
  | codeInt, k + 1 =>
    STEAM_GUARD_CODE_CHARS.getD (codeInt % STEAM_GUARD_CODE_CHARS.length) ' ' ::
      guardCodeChars (codeInt / STEAM_GUARD_CODE_CHARS.length) k

/-- Offset/truncate/mask step shared by the two code generators:
`offset = hash_bytes[19] & 0xF`, then
`int.from_bytes(hash_bytes[offset:offset+4], 'big') & 0x7FFFFFFF`. -/
def guardCodeInt (digest : List Nat) : Nat :=
  fromBytesBE ((digest.drop (digest.getD 19 0 &&& 0xF)).take 4) &&& 0x7FFFFFFF

/-- `SteamGuardAccount.generate_steam_guard_code(timestamp)`.
`shared_secret` is the base64 string stored on the account (the source
checks `if not self.shared_secret` on the string before decoding);
`timestamp` is the explicit argument (the `None` → wall-clock default is
outside the claims).  `none` models an uncaught exception: an undecodable
secret, or an interval that does not fit `int.to_bytes(8, 'big')`. -/
def generate_steam_guard_code (shared_secret : List Char) (timestamp : Nat) :
    Option (List Char) :=
  if shared_secret = [] then some []
  else if timestamp / 30 < 2 ^ 64 then
    match b64decode shared_secret with
    | some secret =>
      some (guardCodeChars
        (guardCodeInt (hmacSha1 secret (toBytesBE 8 (timestamp / 30)))) 5)
    | none => none
  else none

/-- `AccountLinker._generate_auth_code(shared_secret, server_time)`: the
same TOTP derivation, without the empty-secret guard. -/
def generate_auth_code (shared_secret : List Char) (server_time : Nat) :
    Option (List Char) :=
  match b64decode shared_secret with
  | some secret =>
    if server_time / 30 < 2 ^ 64 then
      some (guardCodeChars
        (guardCodeInt (hmacSha1 secret (toBytesBE 8 (server_time / 30)))) 5)
    else none
  | none => none

/-- The spec's reference algorithm for a Steam Guard code, written from the
spec's words: `interval = floor(unix_time / 30)` packed as 8-byte
big-endian, HMAC-SHA1 keyed by the decoded secret, offset = low nibble of
the last digest byte, the 4-byte big-endian value at that offset reduced to
31 bits, then five successive `value mod 26` digits through the fixed
26-character alphabet. -/
def specReferenceCode (secret : List Nat) (timestamp : Nat) : List Char :=
  let digest := hmacSha1 secret (toBytesBE 8 (timestamp / 30))
  let offset := digest.getD 19 0 % 16
  let value := fromBytesBE ((digest.drop offset).take 4) % 2 ^ 31
  [STEAM_GUARD_CODE_CHARS.getD (value % 26) ' ',
   STEAM_GUARD_CODE_CHARS.getD (value / 26 % 26) ' ',
   STEAM_GUARD_CODE_CHARS.getD (value / 26 / 26 % 26) ' ',
   STEAM_GUARD_CODE_CHARS.getD (value / 26 / 26 / 26 % 26) ' ',
   STEAM_GUARD_CODE_CHARS.getD (value / 26 / 26 / 26 / 26 % 26) ' ']

theorem alphabet_getD_mem (i : Nat) :
    STEAM_GUARD_CODE_CHARS.getD (i % 26) ' ' ∈ STEAM_GUARD_CODE_CHARS := by
  have h : i % 26 < STEAM_GUARD_CODE_CHARS.length := by
    have : STEAM_GUARD_CODE_CHARS.length = 26 := by decide
    omega
  rw [List.getD_eq_getElem _ _ h]
  exact List.getElem_mem h

theorem guardCodeInt_eq (digest : List Nat) (hd : ∀ b ∈ digest, b < 256)
    (hlen : digest.length = 20) :
    guardCodeInt digest =
      fromBytesBE ((digest.drop (digest.getD 19 0 % 16)).take 4) % 2 ^ 31 := by
  have h19 : digest.getD 19 0 < 256 := by
    have : 19 < digest.length := by omega
    rw [List.getD_eq_getElem _ _ this]
    exact hd _ (List.getElem_mem this)
  have hmask : digest.getD 19 0 &&& 0xF = digest.getD 19 0 % 16 := by
    have := Nat.and_pow_two_sub_one_eq_mod (digest.getD 19 0) 4
    simpa using this
  have hmask31 : ∀ x : Nat, x &&& 0x7FFFFFFF = x % 2 ^ 31 := by
    intro x
    have := Nat.and_pow_two_sub_one_eq_mod x 31
    simpa using this
  rw [guardCodeInt, hmask, hmask31]

/-- C1 (amended): for every NON-EMPTY base64-decodable `shared_secret` and
every timestamp whose 30-second interval fits eight bytes,
`generate_steam_guard_code` succeeds, agrees with the spec's reference
algorithm, yields exactly five characters drawn from the fixed alphabet,
and depends only on `timestamp / 30` (so two timestamps in the same
30-second window yield the same code).  Determinism is inherent: the
embedding is a pure function of its arguments. -/
theorem generate_steam_guard_code_correct (s : List Char) (secret : List Nat)
    (t : Nat) (hs : s ≠ []) (hdec : b64decode s = some secret)
    (ht : t / 30 < 2 ^ 64) :
    generate_steam_guard_code s t = some (specReferenceCode secret t) ∧
    (specReferenceCode secret t).length = 5 ∧
    (∀ c ∈ specReferenceCode secret t, c ∈ STEAM_GUARD_CODE_CHARS) ∧
    (∀ t', t' / 30 = t / 30 →
      generate_steam_guard_code s t' = generate_steam_guard_code s t) := by
  refine ⟨?_, by simp [specReferenceCode], ?_, ?_⟩
  · have hdig := guardCodeInt_eq (hmacSha1 secret (toBytesBE 8 (t / 30)))
      (hmacSha1_lt _ _) (hmacSha1_length _ _)
    simp only [generate_steam_guard_code, if_neg hs, if_pos ht, hdec,
      specReferenceCode, hdig]
    have h26 : STEAM_GUARD_CODE_CHARS.length = 26 := by decide
    simp [guardCodeChars, h26]
  · intro c hc
    simp only [specReferenceCode, List.mem_cons, List.not_mem_nil, or_false] at hc
    rcases hc with h | h | h | h | h <;> subst h <;> exact alphabet_getD_mem _
  · intro t' ht'
    simp [generate_steam_guard_code, ht']

/-- C1 witness: the amended theorem applied at a concrete secret and
timestamp (base64 `"AAAA"` decodes to the three zero bytes). -/
theorem generate_steam_guard_code_correct_witness :
    generate_steam_guard_code "AAAA".toList 90 =
      some (specReferenceCode [0, 0, 0] 90) ∧
    (specReferenceCode [0, 0, 0] 90).length = 5 ∧
    (∀ c ∈ specReferenceCode [0, 0, 0] 90, c ∈ STEAM_GUARD_CODE_CHARS) ∧
    (∀ t', t' / 30 = 90 / 30 →
      generate_steam_guard_code "AAAA".toList t' =
        generate_steam_guard_code "AAAA".toList 90) :=
  generate_steam_guard_code_correct "AAAA".toList [0, 0, 0] 90
    (by decide) (by decide) (by decide)

/-- C1 counterexample: the empty string is base64-decodable (it decodes to
the empty byte string), yet `generate_steam_guard_code` returns the empty
code `""` for it — not five characters — because of the
`if not self.shared_secret: return ""` guard. -/
theorem generate_steam_guard_code_empty_secret :
    b64decode ([] : List Char) = some [] ∧
    generate_steam_guard_code [] 0 = some [] ∧
    ([] : List Char).length ≠ 5 :=
  ⟨rfl, rfl, by decide⟩

/-- `SteamAPI.generate_confirmation_hash_for_time(time_stamp, tag,
identity_secret)`.  `identity_secret` is passed already base64-decoded (the
source decodes inside the same `try`; the claims quantify over decodable
secrets only); `tag` is the UTF-8 bytes of the tag string.  The source
feeds `time_bytes` to `hmac.new` and appends the tag with
`hmac_obj.update(tag)` only when the tag is non-empty; a failing
`to_bytes` (timestamp ≥ 2^64) is caught and yields `""`. -/
def generate_confirmation_hash_for_time (time_stamp : Nat) (tag : List Nat)
    (identity_secret : List Nat) : List Char :=
  if time_stamp < 2 ^ 64 then
    b64encode (hmacSha1 identity_secret
      (if tag = [] then toBytesBE 8 time_stamp else toBytesBE 8 time_stamp ++ tag))
  else []

/-- C6: for every timestamp that fits eight bytes, every tag and every
(decoded) identity secret, the confirmation key is the base64 encoding of
HMAC-SHA1 keyed by the identity secret over the 8-byte big-endian
timestamp FOLLOWED BY the tag bytes — the tag is appended to the HMAC
input after the time bytes, never substituted for them. -/
theorem generate_confirmation_hash_for_time_correct (t : Nat)
    (tag secret : List Nat) (ht : t < 2 ^ 64) :
    generate_confirmation_hash_for_time t tag secret =
      b64encode (hmacSha1 secret (toBytesBE 8 t ++ tag)) := by
  rcases eq_or_ne tag [] with h | h <;>
    simp [generate_confirmation_hash_for_time, if_pos ht, h] <;>
    (intro h2; omega)

/-- C6 witness: the theorem applied at timestamp 1700000000, tag `"conf"`
and a concrete two-byte secret. -/
theorem generate_confirmation_hash_for_time_correct_witness :
    generate_confirmation_hash_for_time 1700000000 [99, 111, 110, 102] [1, 2] =
      b64encode (hmacSha1 [1, 2] (toBytesBE 8 1700000000 ++ [99, 111, 110, 102])) :=
  generate_confirmation_hash_for_time_correct 1700000000 _ _ (by decide)

/-! ## Protobuf wire format (`steam_protobuf.py`) -/

/-- Disjoint bitwise-or is addition: `a ||| x <<< s = a + x * 2^s` for
`a < 2^s`.  Backs the `result |= (byte & 0x7F) << shift` accumulation of
`ProtobufReader.read_varint`. -/
theorem or_shift_add (a x s : Nat) (ha : a < 2 ^ s) :
    a ||| x <<< s = a + x * 2 ^ s := by
  apply Nat.eq_of_testBit_eq
  intro i
  rw [Nat.testBit_lor, Nat.testBit_shiftLeft]
  rcases lt_or_le i s with hi | hi
  · have h1 : decide (s ≤ i) = false := by simp; omega
    have h2 : Nat.testBit (a + x * 2 ^ s) i = Nat.testBit a i := by
      have e : a + x * 2 ^ s = 2 ^ s * x + a := by ring
      rw [e, Nat.testBit_mul_pow_two_add _ ha, if_pos hi]
    simp [h1, h2]
  · have h1 : decide (s ≤ i) = true := by simpa using hi
    have h2 : Nat.testBit (a + x * 2 ^ s) i = Nat.testBit x (i - s) := by
      have e : a + x * 2 ^ s = 2 ^ s * x + a := by ring
      rw [e, Nat.testBit_mul_pow_two_add _ ha, if_neg (by omega)]
    have h3 : Nat.testBit a i = false := by
      apply Nat.testBit_lt_two_pow
      calc a < 2 ^ s := ha
        _ ≤ 2 ^ i := Nat.pow_le_pow_right (by omega) hi
    simp [h1, h2, h3]

/-- `ProtobufWriter.write_varint`: emit 7 bits at a time, continuation bit
set on all but the last byte. -/
def write_varint (value : Nat) : List Nat :=
  if 0x80 ≤ value then (value &&& 0x7F ||| 0x80) :: write_varint (value >>> 7)
  else [value &&& 0x7F]
termination_by value
decreasing_by
  simp only [Nat.shiftRight_eq_div_pow]
  omega

/-- `ProtobufReader.read_varint` accumulation loop: running `shift` and
`result`; stops at a byte with the continuation bit clear, or at the end of
the stream (returning the partial result, as `BytesIO.read` does). -/
def read_varint_aux : List Nat → Nat → Nat → Nat × List Nat
  | [], _, result => (result, [])
  | b :: rest, shift, result =>
    if b &&& 0x80 = 0 then (result ||| (b &&& 0x7F) <<< shift, rest)
    else read_varint_aux rest (shift + 7) (result ||| (b &&& 0x7F) <<< shift)

/-- `ProtobufReader.read_varint`. -/
def read_varint (s : List Nat) : Nat × List Nat := read_varint_aux s 0 0

theorem write_varint_ne_nil (v : Nat) : write_varint v ≠ [] := by
  rw [write_varint]
  split <;> simp

theorem read_varint_aux_length_le (s : List Nat) :
    ∀ shift result, ((read_varint_aux s shift result).2).length ≤ s.length := by
  induction s with
  | nil => intro shift result; simp [read_varint_aux]
  | cons b rest ih =>
    intro shift result
    rw [read_varint_aux]
    split
    · simp
    · calc ((read_varint_aux rest (shift + 7) _).2).length ≤ rest.length := ih _ _
        _ ≤ (b :: rest).length := by simp

theorem read_varint_length_lt (s : List Nat) (h : s ≠ []) :
    ((read_varint s).2).length < s.length := by
  cases s with
  | nil => exact absurd rfl h
  | cons b rest =>
    rw [read_varint, read_varint_aux]
    split
    · simp
    · calc ((read_varint_aux rest (0 + 7) _).2).length ≤ rest.length :=
        read_varint_aux_length_le _ _ _
        _ < (b :: rest).length := by simp

theorem and7F_eq_mod (v : Nat) : v &&& 0x7F = v % 128 := by
  have := Nat.and_pow_two_sub_one_eq_mod v 7
  simpa using this

theorem and80_small : ∀ x < 256, x &&& 0x80 = if 128 ≤ x then 128 else 0 := by decide

theorem mod128_or_128 (v : Nat) : v % 128 ||| 128 = v % 128 + 128 := by
  have h := or_shift_add (v % 128) 1 7 (by omega)
  rw [Nat.shiftLeft_eq] at h
  norm_num at h
  exact h

/-- Varint round-trip, generalised over the reader's running state. -/
theorem read_varint_aux_write (v : Nat) :
    ∀ (rest : List Nat) (shift acc : Nat), acc < 2 ^ shift →
      read_varint_aux (write_varint v ++ rest) shift acc =
        (acc + v * 2 ^ shift, rest) := by
  induction v using write_varint.induct with
  | case1 v hv ih =>
    intro rest shift acc hacc
    have hbyte : v &&& 0x7F ||| 0x80 = v % 128 + 128 := by
      rw [and7F_eq_mod, mod128_or_128]
    have hcont : (v % 128 + 128) &&& 0x80 = 128 := by
      rw [and80_small (v % 128 + 128) (by omega)]
      simp
    have hlow : (v % 128 + 128) &&& 0x7F = v % 128 := by
      rw [and7F_eq_mod]
      omega
    rw [write_varint, if_pos hv]
    simp only [List.cons_append]
    rw [read_varint_aux]
    simp only [hbyte, hcont, hlow]
    rw [if_neg (by omega)]
    have hacc1 : acc ||| (v % 128) <<< shift = acc + v % 128 * 2 ^ shift :=
      or_shift_add acc (v % 128) shift hacc
    have hacc2 : acc + v % 128 * 2 ^ shift < 2 ^ (shift + 7) := by
      have h1 : v % 128 * 2 ^ shift ≤ 127 * 2 ^ shift :=
        Nat.mul_le_mul_right _ (by omega)
      have h2 : 2 ^ (shift + 7) = 128 * 2 ^ shift := by ring
      omega
    rw [hacc1, ih rest (shift + 7) (acc + v % 128 * 2 ^ shift) hacc2]
    have hsplit : v % 128 * 2 ^ shift + v >>> 7 * 2 ^ (shift + 7) = v * 2 ^ shift := by
      rw [Nat.shiftRight_eq_div_pow]
      have h2 : (2 : Nat) ^ 7 = 128 := by norm_num
      have h3 : v % 128 + v / 2 ^ 7 * 128 = v := by rw [h2]; omega
      calc v % 128 * 2 ^ shift + v / 2 ^ 7 * 2 ^ (shift + 7)
          = (v % 128 + v / 2 ^ 7 * 128) * 2 ^ shift := by ring
        _ = v * 2 ^ shift := by rw [h3]
    simp only [Prod.mk.injEq]
    exact ⟨by omega, trivial⟩
  | case2 v hv =>
    intro rest shift acc hacc
    have hvlt : v < 128 := by omega
    have hb : v &&& 0x7F = v := by rw [and7F_eq_mod]; omega
    have hcont : v &&& 0x80 = 0 := by
      rw [and80_small v (by omega)]
      simp
      omega
    rw [write_varint, if_neg hv]
    simp only [List.cons_append, List.nil_append]
    have hcond : (v &&& 0x7F) &&& 0x80 = 0 := by rw [hb]; exact hcont
    rw [read_varint_aux, if_pos hcond, hb, hb, or_shift_add acc v shift hacc]

/-- Varint round-trip at the reader entry point. -/
theorem read_varint_write (v : Nat) (rest : List Nat) :
    read_varint (write_varint v ++ rest) = (v, rest) := by
  rw [read_varint, read_varint_aux_write v rest 0 0 (by omega)]
  simp

/-- `struct.unpack('<Q', ...)`-style little-endian deserialisation. -/
def fromBytesLE (l : List Nat) : Nat := l.foldr (fun b acc => acc * 256 + b) 0

theorem fromBytesLE_toBytesLE (n v : Nat) (hv : v < 256 ^ n) :
    fromBytesLE (toBytesLE n v) = v := by
  induction n generalizing v with
  | zero => simp [toBytesLE, fromBytesLE] at *; omega
  | succ k ih =>
    have hdiv : v / 256 < 256 ^ k := by
      rw [Nat.div_lt_iff_lt_mul (by omega)]
      calc v < 256 ^ (k + 1) := hv
        _ = 256 ^ k * 256 := by ring
    simp only [toBytesLE, fromBytesLE, List.foldr_cons]
    have := ih (v / 256) hdiv
    rw [fromBytesLE] at this
    rw [this]
    omega

/-- The tag of `ProtobufWriter.write_field`:
`tag = (field_number << 3) | wire_type`. -/
def write_tag (field_number wire_type : Nat) : List Nat :=
  write_varint (field_number <<< 3 ||| wire_type)

/-- `write_field` with wire type 0 (varint). -/
def write_field_varint (field_number value : Nat) : List Nat :=
  write_tag field_number 0 ++ write_varint value

/-- `write_field` with wire type 1 (`struct.pack('<Q', value)`); callers
must keep `value < 2^64` (`struct.pack` raises otherwise). -/
def write_field_fixed64 (field_number value : Nat) : List Nat :=
  write_tag field_number 1 ++ toBytesLE 8 value

/-- `write_field` with wire type 2 (length-delimited); `value` is the byte
string (strings are passed as their UTF-8 bytes). -/
def write_field_lengthd (field_number : Nat) (value : List Nat) : List Nat :=
  write_tag field_number 2 ++ write_varint value.length ++ value

/-- `ProtobufWriter.write_string`: skipped entirely when the string is
empty (`if value:`). -/
def write_string (field_number : Nat) (value : List Nat) : List Nat :=
  if value = [] then [] else write_field_lengthd field_number value

/-- `ProtobufWriter.write_uint64`: always written, even when zero. -/
def write_uint64 (field_number value : Nat) : List Nat :=
  write_field_varint field_number value

/-- `ProtobufWriter.write_fixed64`: always written, even when zero. -/
def write_fixed64 (field_number value : Nat) : List Nat :=
  write_field_fixed64 field_number value

/-- `ProtobufWriter.write_bool`: written as varint 1 when true, skipped
when false (`if value:`). -/
def write_bool (field_number : Nat) (value : Bool) : List Nat :=
  if value then write_field_varint field_number 1 else []

/-- `ProtobufWriter.write_enum`: always written, even when zero. -/
def write_enum (field_number value : Nat) : List Nat :=
  write_field_varint field_number value

/-- A typed field value handed to the writer (C2's field set). -/
inductive FieldVal where
  | vstr (s : List Nat)
  | vbytes (b : List Nat)
  | vuint (n : Nat)
  | vfixed64 (n : Nat)
  | venum (n : Nat)
  | vbool (b : Bool)
deriving DecidableEq

/-- Serialise one typed field through the corresponding writer method. -/
def encodeField : Nat × FieldVal → List Nat
  | (f, .vstr s) => write_string f s
  | (f, .vbytes b) => write_field_lengthd f b
  | (f, .vuint n) => write_uint64 f n
  | (f, .vfixed64 n) => write_fixed64 f n
  | (f, .venum n) => write_enum f n
  | (f, .vbool b) => write_bool f b

/-- Serialise a message: each field written in order into one buffer. -/
def encodeMessage (fields : List (Nat × FieldVal)) : List Nat :=
  (fields.map encodeField).flatten

/-- A value as stored in `ProtobufReader.fields`.  Length-delimited
payloads are kept as their bytes: Python stores a `str` when the bytes are
UTF-8-decodable and `bytes` otherwise, but both denote the same byte
string (`get_bytes` re-encodes). -/
inductive DecVal where
  | dvarint (v : Nat)
  | dfixed64 (v : Nat)
  | dlengthd (bs : List Nat)
  | dfixed32 (v : Nat)
deriving DecidableEq

/-- `ProtobufReader._parse`, returning the `(field_number, value)`
assignments in the order they are written into `self.fields`.  The
`stream = []` guard only names the case in which the tag read below would
return 0 anyway (reading an empty `BytesIO` yields 0 and `_parse` breaks). -/
def parseFields (stream : List Nat) : List (Nat × DecVal) :=
  if hs : stream = [] then []
  else
    if (read_varint stream).1 = 0 then []
    else
      if (read_varint stream).1 &&& 0x7 = 0 then
        ((read_varint stream).1 >>> 3,
          .dvarint (read_varint (read_varint stream).2).1) ::
          parseFields (read_varint (read_varint stream).2).2
      else if (read_varint stream).1 &&& 0x7 = 1 then
        if 8 ≤ (read_varint stream).2.length then
          ((read_varint stream).1 >>> 3,
            .dfixed64 (fromBytesLE ((read_varint stream).2.take 8))) ::
            parseFields ((read_varint stream).2.drop 8)
        else parseFields ((read_varint stream).2.drop 8)
      else if (read_varint stream).1 &&& 0x7 = 2 then
        ((read_varint stream).1 >>> 3,
          .dlengthd ((read_varint (read_varint stream).2).2.take
            (read_varint (read_varint stream).2).1)) ::
          parseFields ((read_varint (read_varint stream).2).2.drop
            (read_varint (read_varint stream).2).1)
      else if (read_varint stream).1 &&& 0x7 = 5 then
        if 4 ≤ (read_varint stream).2.length then
          ((read_varint stream).1 >>> 3,
            .dfixed32 (fromBytesLE ((read_varint stream).2.take 4))) ::
            parseFields ((read_varint stream).2.drop 4)
        else parseFields ((read_varint stream).2.drop 4)
      else parseFields (read_varint stream).2
termination_by stream.length
decreasing_by
  all_goals
    (have h0 := read_varint_length_lt stream hs
     have h1 : (read_varint (read_varint stream).2).2.length ≤
         (read_varint stream).2.length := read_varint_aux_length_le _ 0 0
     try simp only [List.length_drop]
     omega)

/-- The `self.fields[field_number] = value` dict: later assignments win. -/
def fieldsMap (assigns : List (Nat × DecVal)) : Nat → Option DecVal :=
  assigns.foldl (fun m a => fun g => if g = a.1 then some a.2 else m g)
    (fun _ => none)

/-- The wire value the decoder is expected to recover for a written field;
`none` when the writer emits nothing (empty string, false bool). -/
def decVal : FieldVal → Option DecVal
  | .vstr s => if s = [] then none else some (.dlengthd s)
  | .vbytes b => some (.dlengthd b)
  | .vuint n => some (.dvarint n)
  | .vfixed64 n => some (.dfixed64 n)
  | .venum n => some (.dvarint n)
  | .vbool b => if b then some (.dvarint 1) else none

/-- Wellformedness of a written field: positive protobuf field number,
byte-string payloads made of bytes, fixed64 values in `uint64` range. -/
def fieldOk : Nat × FieldVal → Prop
  | (f, .vstr s) => 1 ≤ f ∧ ∀ b ∈ s, b < 256
  | (f, .vbytes b) => 1 ≤ f ∧ ∀ x ∈ b, x < 256
  | (f, .vuint _) => 1 ≤ f
  | (f, .vfixed64 n) => 1 ≤ f ∧ n < 2 ^ 64
  | (f, .venum _) => 1 ≤ f
  | (f, .vbool _) => 1 ≤ f

theorem tag_val (f w : Nat) (hw : w < 8) : f <<< 3 ||| w = 8 * f + w := by
  rw [Nat.lor_comm]
  have := or_shift_add w f 3 (by omega)
  rw [this]
  omega

theorem tag_field (f w : Nat) (hw : w < 8) : (8 * f + w) >>> 3 = f := by
  rw [Nat.shiftRight_eq_div_pow]
  omega

theorem tag_wire (f w : Nat) (hw : w < 8) : (8 * f + w) &&& 0x7 = w := by
  have := Nat.and_pow_two_sub_one_eq_mod (8 * f + w) 3
  simp at this
  omega

theorem append_ne_nil_left {l r : List Nat} (h : l ≠ []) : l ++ r ≠ [] := by
  cases l
  · exact absurd rfl h
  · simp

theorem take_append_of_length {α : Type} (l r : List α) (n : Nat)
    (h : l.length = n) : (l ++ r).take n = l := by
  subst h
  simp

theorem drop_append_of_length {α : Type} (l r : List α) (n : Nat)
    (h : l.length = n) : (l ++ r).drop n = r := by
  subst h
  simp

/-- Parsing a varint field at the head of the stream. -/
theorem parseFields_field_varint (f v : Nat) (hf : 1 ≤ f) (rest : List Nat) :
    parseFields (write_field_varint f v ++ rest) =
      (f, .dvarint v) :: parseFields rest := by
  have htagv : f <<< 3 ||| 0 = 8 * f + 0 := tag_val f 0 (by omega)
  have hstream : write_field_varint f v ++ rest =
      write_varint (f <<< 3 ||| 0) ++ (write_varint v ++ rest) := by
    simp [write_field_varint, write_tag]
  have hne : write_field_varint f v ++ rest ≠ [] := by
    rw [hstream]
    exact append_ne_nil_left (write_varint_ne_nil _)
  have hrv : read_varint (write_field_varint f v ++ rest) =
      (8 * f + 0, write_varint v ++ rest) := by
    rw [hstream, htagv, read_varint_write]
  rw [parseFields.eq_def, dif_neg hne, hrv]
  rw [if_neg (by omega)]
  rw [if_pos (tag_wire f 0 (by omega))]
  rw [read_varint_write, tag_field f 0 (by omega)]

/-- Parsing a fixed64 field at the head of the stream. -/
theorem parseFields_field_fixed64 (f v : Nat) (hf : 1 ≤ f) (hv : v < 2 ^ 64)
    (rest : List Nat) :
    parseFields (write_field_fixed64 f v ++ rest) =
      (f, .dfixed64 v) :: parseFields rest := by
  have htagv : f <<< 3 ||| 1 = 8 * f + 1 := tag_val f 1 (by omega)
  have hstream : write_field_fixed64 f v ++ rest =
      write_varint (f <<< 3 ||| 1) ++ (toBytesLE 8 v ++ rest) := by
    simp [write_field_fixed64, write_tag]
  have hne : write_field_fixed64 f v ++ rest ≠ [] := by
    rw [hstream]
    exact append_ne_nil_left (write_varint_ne_nil _)
  have hrv : read_varint (write_field_fixed64 f v ++ rest) =
      (8 * f + 1, toBytesLE 8 v ++ rest) := by
    rw [hstream, htagv, read_varint_write]
  have hlen8 : (toBytesLE 8 v).length = 8 := toBytesLE_length 8 v
  have htk : (toBytesLE 8 v ++ rest).take 8 = toBytesLE 8 v :=
    take_append_of_length _ _ _ hlen8
  have hdr : (toBytesLE 8 v ++ rest).drop 8 = rest :=
    drop_append_of_length _ _ _ hlen8
  rw [parseFields.eq_def, dif_neg hne, hrv]
  rw [if_neg (by omega)]
  rw [if_neg (by rw [tag_wire f 1 (by omega)]; omega)]
  rw [if_pos (tag_wire f 1 (by omega))]
  rw [if_pos (by simp [hlen8])]
  rw [htk, hdr, tag_field f 1 (by omega),
    fromBytesLE_toBytesLE 8 v (by norm_num; omega)]

/-- Parsing a length-delimited field at the head of the stream. -/
theorem parseFields_field_lengthd (f : Nat) (bs : List Nat) (hf : 1 ≤ f)
    (rest : List Nat) :
    parseFields (write_field_lengthd f bs ++ rest) =
      (f, .dlengthd bs) :: parseFields rest := by
  have htagv : f <<< 3 ||| 2 = 8 * f + 2 := tag_val f 2 (by omega)
  have hstream : write_field_lengthd f bs ++ rest =
      write_varint (f <<< 3 ||| 2) ++ (write_varint bs.length ++ (bs ++ rest)) := by
    simp [write_field_lengthd, write_tag]
  have hne : write_field_lengthd f bs ++ rest ≠ [] := by
    rw [hstream]
    exact append_ne_nil_left (write_varint_ne_nil _)
  have hrv : read_varint (write_field_lengthd f bs ++ rest) =
      (8 * f + 2, write_varint bs.length ++ (bs ++ rest)) := by
    rw [hstream, htagv, read_varint_write]
  rw [parseFields.eq_def, dif_neg hne, hrv]
  rw [if_neg (by omega)]
  rw [if_neg (by rw [tag_wire f 2 (by omega)]; omega)]
  rw [if_neg (by rw [tag_wire f 2 (by omega)]; omega)]
  rw [if_pos (tag_wire f 2 (by omega))]
  rw [read_varint_write, take_append_of_length bs rest _ rfl,
    drop_append_of_length bs rest _ rfl, tag_field f 2 (by omega)]

/-- Parsing one written field: an emitted field contributes its assignment,
a skipped field (empty string, false bool) contributes nothing. -/
theorem parseFields_encodeField (p : Nat × FieldVal) (hok : fieldOk p)
    (rest : List Nat) :
    parseFields (encodeField p ++ rest) =
      (match decVal p.2 with
        | some dv => (p.1, dv) :: parseFields rest
        | none => parseFields rest) := by
  obtain ⟨f, val⟩ := p
  cases val with
  | vstr s =>
    rcases eq_or_ne s [] with h | h
    · simp [encodeField, write_string, h, decVal]
    · simp only [encodeField, write_string, if_neg h, decVal]
      rw [parseFields_field_lengthd f s hok.1 rest]
  | vbytes b =>
    simp only [encodeField, decVal]
    rw [parseFields_field_lengthd f b hok.1 rest]
  | vuint n =>
    simp only [encodeField, write_uint64, decVal]
    rw [parseFields_field_varint f n hok rest]
  | vfixed64 n =>
    simp only [encodeField, write_fixed64, decVal]
    rw [parseFields_field_fixed64 f n hok.1 hok.2 rest]
  | venum n =>
    simp only [encodeField, write_enum, decVal]
    rw [parseFields_field_varint f n hok rest]
  | vbool b =>
    cases b with
    | false => simp [encodeField, write_bool, decVal]
    | true =>
      have h := parseFields_field_varint f 1 hok rest
      simpa [encodeField, write_bool, decVal] using h

theorem fieldsMap_base (assigns : List (Nat × DecVal)) :
    ∀ (m : Nat → Option DecVal) (g : Nat),
      (assigns.foldl (fun m a => fun g => if g = a.1 then some a.2 else m g) m) g =
        match fieldsMap assigns g with
        | some v => some v
        | none => m g := by
  induction assigns with
  | nil => intro m g; simp [fieldsMap]
  | cons a rest ih =>
    intro m g
    simp only [fieldsMap, List.foldl_cons] at *
    rw [ih (fun g => if g = a.1 then some a.2 else m g) g,
      ih (fun g => if g = a.1 then some a.2 else none) g]
    cases List.foldl (fun m a => fun g => if g = a.1 then some a.2 else m g)
        (fun _ => none) rest g with
    | none => by_cases hg : g = a.1 <;> simp [hg]
    | some v => rfl

theorem fieldsMap_cons (a : Nat × DecVal) (rest : List (Nat × DecVal)) (g : Nat) :
    fieldsMap (a :: rest) g =
      match fieldsMap rest g with
      | some v => some v
      | none => if g = a.1 then some a.2 else none := by
  simp only [fieldsMap, List.foldl_cons]
  exact fieldsMap_base rest _ g

/-- The field-number-to-value mapping determined by the typed fields handed
to the writer: first (equivalently, with distinct field numbers, only)
binding wins. -/
def specLookup : List (Nat × FieldVal) → Nat → Option DecVal
  | [], _ => none
  | p :: rest, g => if p.1 = g then decVal p.2 else specLookup rest g

theorem specLookup_not_mem (fields : List (Nat × FieldVal)) (g : Nat) :
    g ∉ fields.map Prod.fst → specLookup fields g = none := by
  induction fields with
  | nil => intro h; rfl
  | cons p rest ih =>
    intro h
    have h1 : ¬p.1 = g := by
      intro he
      exact h (by simp [← he])
    have h2 : g ∉ rest.map Prod.fst := by
      intro hm
      exact h (by simp [hm])
    simp only [specLookup, if_neg h1]
    exact ih h2

/-- Decoding an encoded message recovers the written field map. -/
theorem fieldsMap_parse_encode (fields : List (Nat × FieldVal))
    (hok : ∀ p ∈ fields, fieldOk p)
    (hnodup : (fields.map Prod.fst).Nodup) :
    ∀ g, fieldsMap (parseFields (encodeMessage fields)) g = specLookup fields g := by
  induction fields with
  | nil =>
    intro g
    have : parseFields (encodeMessage []) = [] := by
      rw [encodeMessage]
      simp only [List.map_nil, List.flatten_nil]
      rw [parseFields.eq_def, dif_pos rfl]
    simp [this, fieldsMap, specLookup]
  | cons p rest ih =>
    intro g
    have hokp := hok p (by simp)
    have hok' : ∀ q ∈ rest, fieldOk q := fun q hq => hok q (by simp [hq])
    have hnd : p.1 ∉ rest.map Prod.fst ∧ (rest.map Prod.fst).Nodup := by
      rw [List.map_cons, List.nodup_cons] at hnodup
      exact hnodup
    have henc : encodeMessage (p :: rest) = encodeField p ++ encodeMessage rest := by
      simp [encodeMessage]
    rw [henc, parseFields_encodeField p hokp (encodeMessage rest)]
    cases hdv : decVal p.2 with
    | none =>
      simp only []
      rw [ih hok' hnd.2 g]
      simp only [specLookup]
      by_cases hg : p.1 = g
      · rw [if_pos hg, hdv, ← hg]
        exact specLookup_not_mem rest p.1 hnd.1
      · rw [if_neg hg]
    | some dv =>
      simp only []
      rw [fieldsMap_cons, ih hok' hnd.2 g]
      simp only [specLookup]
      by_cases hg : p.1 = g
      · rw [if_pos hg, hdv, ← hg, specLookup_not_mem rest p.1 hnd.1]
        simp
      · rw [if_neg hg]
        rcases hs : specLookup rest g with _ | v
        · have hgg : ¬g = p.1 := fun he => hg he.symm
          simp [hs, hgg]
        · rfl

theorem specLookup_mem (fields : List (Nat × FieldVal))
    (hnodup : (fields.map Prod.fst).Nodup) (p : Nat × FieldVal) (hp : p ∈ fields) :
    specLookup fields p.1 = decVal p.2 := by
  induction fields with
  | nil => simp at hp
  | cons q rest ih =>
    have hnd : q.1 ∉ rest.map Prod.fst ∧ (rest.map Prod.fst).Nodup := by
      rw [List.map_cons, List.nodup_cons] at hnodup
      exact hnodup
    rcases List.mem_cons.mp hp with h | h
    · subst h
      simp [specLookup]
    · have hne : ¬q.1 = p.1 := by
        intro he
        apply hnd.1
        rw [he]
        exact List.mem_map_of_mem Prod.fst h
      simp only [specLookup, if_neg hne]
      exact ih hnd.2 h

/-- C2: for every set of typed message fields with distinct positive field
numbers (strings via `write_string`, bytes via `write_field` wire type 2,
uint64 via `write_uint64`, fixed64 via `write_fixed64`, enums via
`write_enum`, bools via `write_bool`), decoding the serialised buffer with
`ProtobufReader` yields back exactly the written field-number-to-value
mapping: every written field number maps to exactly the written wire value.
In particular a ZERO uint64, fixed64 or enum value is present in the
decoded mapping (`decVal` is `some` for those), not dropped; the only
fields absent from the decoded mapping are the ones whose writer emits no
bytes at all (empty strings and false bools, whose reader accessors then
return the identical `""`/`False` defaults). -/
theorem protobuf_roundtrip (fields : List (Nat × FieldVal))
    (hok : ∀ p ∈ fields, fieldOk p)
    (hnodup : (fields.map Prod.fst).Nodup) :
    ∀ p ∈ fields, fieldsMap (parseFields (encodeMessage fields)) p.1 = decVal p.2 := by
  intro p hp
  rw [fieldsMap_parse_encode fields hok hnodup p.1]
  exact specLookup_mem fields hnodup p hp

/-- C2 witness: the round-trip theorem applied to a concrete message that
exercises every writer method, including zero values for uint64, fixed64
and enum fields, instantiated at the string field and the zero-valued
uint64 field. -/
theorem protobuf_roundtrip_witness :
    fieldsMap (parseFields (encodeMessage
        [(1, FieldVal.vstr [104, 105]), (2, FieldVal.vbytes [0, 255]),
         (3, FieldVal.vuint 0), (4, FieldVal.vfixed64 0), (5, FieldVal.venum 0),
         (6, FieldVal.vbool true), (7, FieldVal.vbool false)])) 1 =
      decVal (FieldVal.vstr [104, 105]) ∧
    fieldsMap (parseFields (encodeMessage
        [(1, FieldVal.vstr [104, 105]), (2, FieldVal.vbytes [0, 255]),
         (3, FieldVal.vuint 0), (4, FieldVal.vfixed64 0), (5, FieldVal.venum 0),
         (6, FieldVal.vbool true), (7, FieldVal.vbool false)])) 3 =
      decVal (FieldVal.vuint 0) :=
  ⟨protobuf_roundtrip _
      (by intro p hp; fin_cases hp <;> simp [fieldOk])
      (by decide) (1, FieldVal.vstr [104, 105]) (by simp),
    protobuf_roundtrip _
      (by intro p hp; fin_cases hp <;> simp [fieldOk])
      (by decide) (3, FieldVal.vuint 0) (by simp)⟩

/-- `SteamProtobufAuth.create_steamguard_request(client_id, steamid, code)`:
the `UpdateAuthSessionWithSteamGuardCode` request body. -/
def create_steamguard_request (client_id steamid : Nat) (code : List Nat) :
    List Nat :=
  write_uint64 1 client_id ++ write_fixed64 2 steamid ++ write_string 3 code ++
    write_enum 4 3 ++ write_bool 7 true ++ write_enum 11 0 ++ write_enum 12 2

/-- C9: in the `UpdateAuthSessionWithSteamGuardCode` request the steamid is
encoded under field number 2 with wire type 1: the serialised request
carries, immediately after the client_id field, the single tag byte 17
(`(2 << 3) | 1` as a varint) followed by exactly eight bytes holding the
steamid in little-endian order — never a varint encoding. -/
theorem create_steamguard_request_steamid_fixed64 (c s : Nat)
    (code : List Nat) (hs : s < 2 ^ 64) :
    create_steamguard_request c s code =
      write_uint64 1 c ++ (17 :: toBytesLE 8 s) ++
        (write_string 3 code ++ write_enum 4 3 ++ write_bool 7 true ++
          write_enum 11 0 ++ write_enum 12 2) ∧
    write_varint (2 <<< 3 ||| 1) = [17] ∧
    (toBytesLE 8 s).length = 8 ∧
    (∀ i < 8, (toBytesLE 8 s).getD i 0 = s / 256 ^ i % 256) := by
  have htag : write_varint (2 <<< 3 ||| 1) = [17] := by
    rw [write_varint]
    decide
  refine ⟨?_, htag, toBytesLE_length 8 s, fun i hi => toBytesLE_getD 8 s i hi⟩
  simp only [create_steamguard_request, write_fixed64, write_field_fixed64,
    write_tag, htag, List.append_assoc, List.cons_append, List.nil_append]

/-- C9 witness: the theorem applied at a concrete client id, steamid and
code. -/
theorem create_steamguard_request_steamid_fixed64_witness :
    create_steamguard_request 123456789 76561198000000000 [65, 66, 67, 68, 69] =
      write_uint64 1 123456789 ++ (17 :: toBytesLE 8 76561198000000000) ++
        (write_string 3 [65, 66, 67, 68, 69] ++ write_enum 4 3 ++
          write_bool 7 true ++ write_enum 11 0 ++ write_enum 12 2) ∧
    write_varint (2 <<< 3 ||| 1) = [17] ∧
    (toBytesLE 8 76561198000000000).length = 8 ∧
    (∀ i < 8, (toBytesLE 8 76561198000000000).getD i 0 =
      76561198000000000 / 256 ^ i % 256) :=
  create_steamguard_request_steamid_fixed64 123456789 76561198000000000
    [65, 66, 67, 68, 69] (by norm_num)

/-! ## Confirmation fetching (`SteamAPI.get_confirmations`)

The network interaction of `get_confirmations` is embedded as a recursion
over the script of successive `/mobileconf/getlist` responses (one entry
consumed per HTTP request).  Token state is abstracted to booleans:
`hasRefresh` (`session_data` contains a refresh token), `refreshValid`
(`check_token_expiration` reports the refresh token unexpired),
`refreshOk` (`refresh_access_token` returns a token that is truthy and
different from the stored refresh token), `accessValid` (the access token
is unexpired).  After any successful refresh the access token is fresh, so
recursive calls run with `accessValid = true`.  The result counts the
token refreshes performed and carries the outcome (`[]` on all failure
paths in the source is `.failed`; an exhausted script models the
swallowed-exception path, also `[]`). -/

inductive ConfResp where
  | jsonOk (confs : Nat)
  | jsonNeedauth
  | jsonFail
  | status401
  | statusOther
deriving DecidableEq

inductive ConfResult where
  | ok (confs : Nat)
  | failed
deriving DecidableEq

def get_confirmations (hasRefresh refreshValid refreshOk accessValid : Bool) :
    List ConfResp → Nat × ConfResult
  | [] => (0, .failed)
  | r :: rest =>
    let pre := if refreshValid && !accessValid then 1 else 0
    match r with
    | .jsonOk n => (pre, .ok n)
    | .jsonFail => (pre, .failed)
    | .statusOther => (pre, .failed)
    | .jsonNeedauth =>
      if refreshValid && refreshOk then
        let retry := get_confirmations hasRefresh refreshValid refreshOk true rest
        (pre + 1 + retry.1, retry.2)
      else (pre, .failed)
    | .status401 =>
      if hasRefresh && refreshOk then
        let retry := get_confirmations hasRefresh refreshValid refreshOk true rest
        (pre + 1 + retry.1, retry.2)
      else (pre, .failed)

/-- C3: failing input for the one-refresh-retry claim.  With a valid,
working refresh token and a server that answers `needauth` twice before
succeeding, one logical `get_confirmations` call performs TWO token
refreshes and three requests and still returns the list: the `needauth`
branch re-enters `get_confirmations` recursively with nothing enforcing
the "(but only once)" of the source comment, so a second `needauth` after
a refresh is refreshed and retried again instead of failing hard. -/
theorem get_confirmations_two_refreshes :
    get_confirmations true true true true
      [ConfResp.jsonNeedauth, ConfResp.jsonNeedauth, ConfResp.jsonOk 2] =
      (2, ConfResult.ok 2) := rfl

/-- C3 (supporting): the retry recursion is unbounded — `n` consecutive
`needauth` responses trigger `n` refreshes, for every `n`. -/
theorem get_confirmations_unbounded_refreshes (n m : Nat) :
    get_confirmations true true true true
      (List.replicate n ConfResp.jsonNeedauth ++ [ConfResp.jsonOk m]) =
      (n, ConfResult.ok m) := by
  induction n with
  | zero => rfl
  | succ k ih =>
    simp only [List.replicate_succ, List.cons_append]
    rw [get_confirmations]
    simp [ih]
    omega

/-! ## Login polling (`SteamProtobufLogin.complete_login_flow` /
`complete_2fa_login`)

`poll_auth_session` is embedded over the parsed `PollAuthSessionStatus`
response (`.tokens access refresh had_remote_interaction`, or `.exc` for a
raised request error); the polling loops consume a response script indexed
by attempt number. -/

inductive PollResp where
  | tokens (access refresh : List Char) (hri : Bool)
  | exc
deriving DecidableEq

inductive PollOutcome where
  | success (access refresh : List Char)
  | waiting
  | error
deriving DecidableEq

/-- `SteamProtobufLogin.poll_auth_session`: non-empty access or refresh
token is success; otherwise "waiting", both when `had_remote_interaction`
is true and when it is false (the source returns `{"waiting": True}` in
both branches); a raised request error becomes `{"error": ...}`. -/
def poll_auth_session : PollResp → PollOutcome
  | .tokens access refresh hri =>
    if access ≠ [] ∨ refresh ≠ [] then .success access refresh
    else if hri then .waiting
    else .waiting
  | .exc => .error

inductive LoginResult where
  | success (access refresh : List Char)
  | error
  | timeout
deriving DecidableEq

inductive LoginEvent where
  | poll
  | sleepSecond
deriving DecidableEq

/-- The shared `for attempt in range(cap)` polling loop of
`complete_login_flow` (cap 30) and `complete_2fa_login` (cap 10):
poll, return on success, sleep 1 s and continue on waiting, fail hard on
error, `"Login timeout"` when the cap is exhausted. -/
def poll_loop (script : Nat → PollResp) : Nat → Nat → LoginResult × List LoginEvent
  | 0, _ => (.timeout, [])
  | n + 1, i =>
    match poll_auth_session (script i) with
    | .success a r => (.success a r, [.poll])
    | .waiting =>
      let rest := poll_loop script n (i + 1)
      (rest.1, .poll :: .sleepSecond :: rest.2)
    | .error => (.error, [.poll])

/-- The poll section of `complete_login_flow`: `for attempt in range(30)`. -/
def complete_login_flow_poll (script : Nat → PollResp) : LoginResult × List LoginEvent :=
  poll_loop script 30 0

/-- The poll section of `complete_2fa_login`: `for attempt in range(10)`. -/
def complete_2fa_login_poll (script : Nat → PollResp) : LoginResult × List LoginEvent :=
  poll_loop script 10 0

/-- `k` poll attempts each followed by the one-second sleep. -/
def pollsAndSleeps (k : Nat) : List LoginEvent :=
  (List.replicate k [LoginEvent.poll, LoginEvent.sleepSecond]).flatten

theorem poll_loop_shape (script : Nat → PollResp) :
    ∀ (n i : Nat),
      (∃ k, k < n ∧ (poll_loop script n i).2 = pollsAndSleeps k ++ [.poll] ∧
        (poll_loop script n i).1 ≠ .timeout) ∨
      ((poll_loop script n i).1 = .timeout ∧
        (poll_loop script n i).2 = pollsAndSleeps n) := by
  intro n
  induction n with
  | zero => intro i; right; exact ⟨rfl, rfl⟩
  | succ m ih =>
    intro i
    rw [poll_loop]
    cases hpo : poll_auth_session (script i) with
    | success a r => exact Or.inl ⟨0, by omega, by simp [pollsAndSleeps], by simp⟩
    | error => exact Or.inl ⟨0, by omega, by simp [pollsAndSleeps], by simp⟩
    | waiting =>
      rcases ih (i + 1) with ⟨k, hk, htr, hres⟩ | ⟨hres, htr⟩
      · refine Or.inl ⟨k + 1, by omega, ?_, by simpa using hres⟩
        simp [pollsAndSleeps, List.replicate_succ] at htr ⊢
        simp [htr]
      · refine Or.inr ⟨by simpa using hres, ?_⟩
        simp [pollsAndSleeps, List.replicate_succ] at htr ⊢
        simp [htr]

theorem poll_loop_all_waiting (script : Nat → PollResp)
    (hw : ∀ j, poll_auth_session (script j) = .waiting) :
    ∀ (n i : Nat), (poll_loop script n i).1 = .timeout := by
  intro n
  induction n with
  | zero => intro i; rfl
  | succ m ih =>
    intro i
    rw [poll_loop, hw i]
    simpa using ih (i + 1)

/-- C4 (amended): both login polling loops poll with a one-second sleep
between attempts under an explicit attempt cap, classify a response with a
non-empty access or refresh token as success and a token-less response as
still waiting whether `had_remote_interaction` is true or false, and yield
the timeout error (never a silent retry) when the cap is exhausted — but
the caps differ: `complete_login_flow` polls up to 30 attempts while the
resumed `complete_2fa_login` polls only up to 10. -/
theorem login_polling_caps (script : Nat → PollResp) :
    ((∃ k, k < 30 ∧
        (complete_login_flow_poll script).2 = pollsAndSleeps k ++ [.poll] ∧
        (complete_login_flow_poll script).1 ≠ .timeout) ∨
      ((complete_login_flow_poll script).1 = .timeout ∧
        (complete_login_flow_poll script).2 = pollsAndSleeps 30)) ∧
    ((∃ k, k < 10 ∧
        (complete_2fa_login_poll script).2 = pollsAndSleeps k ++ [.poll] ∧
        (complete_2fa_login_poll script).1 ≠ .timeout) ∨
      ((complete_2fa_login_poll script).1 = .timeout ∧
        (complete_2fa_login_poll script).2 = pollsAndSleeps 10)) ∧
    ((∀ j, poll_auth_session (script j) = .waiting) →
      (complete_login_flow_poll script).1 = .timeout ∧
      (complete_2fa_login_poll script).1 = .timeout) ∧
    (∀ a r hri, (a ≠ [] ∨ r ≠ []) →
      poll_auth_session (.tokens a r hri) = .success a r) ∧
    (∀ hri, poll_auth_session (.tokens [] [] hri) = .waiting) := by
  refine ⟨poll_loop_shape script 30 0, poll_loop_shape script 10 0, ?_, ?_, ?_⟩
  · intro hw
    exact ⟨poll_loop_all_waiting script hw 30 0, poll_loop_all_waiting script hw 10 0⟩
  · intro a r hri h
    simp [poll_auth_session, h]
  · intro hri
    cases hri <;> simp [poll_auth_session]

/-- C4 witness: the amended theorem applied at a concrete response
script. -/
theorem login_polling_caps_witness :
    ((∃ k, k < 30 ∧
        (complete_login_flow_poll (fun i : Nat => PollResp.exc)).2 =
          pollsAndSleeps k ++ [.poll] ∧
        (complete_login_flow_poll (fun i : Nat => PollResp.exc)).1 ≠ .timeout) ∨
      ((complete_login_flow_poll (fun i : Nat => PollResp.exc)).1 = .timeout ∧
        (complete_login_flow_poll (fun i : Nat => PollResp.exc)).2 = pollsAndSleeps 30)) ∧
    ((∃ k, k < 10 ∧
        (complete_2fa_login_poll (fun i : Nat => PollResp.exc)).2 =
          pollsAndSleeps k ++ [.poll] ∧
        (complete_2fa_login_poll (fun i : Nat => PollResp.exc)).1 ≠ .timeout) ∨
      ((complete_2fa_login_poll (fun i : Nat => PollResp.exc)).1 = .timeout ∧
        (complete_2fa_login_poll (fun i : Nat => PollResp.exc)).2 = pollsAndSleeps 10)) ∧
    ((∀ j, poll_auth_session ((fun i : Nat => PollResp.exc) j) = .waiting) →
      (complete_login_flow_poll (fun i : Nat => PollResp.exc)).1 = .timeout ∧
      (complete_2fa_login_poll (fun i : Nat => PollResp.exc)).1 = .timeout) ∧
    (∀ a r hri, (a ≠ [] ∨ r ≠ []) →
      poll_auth_session (.tokens a r hri) = .success a r) ∧
    (∀ hri, poll_auth_session (.tokens [] [] hri) = .waiting) :=
  login_polling_caps (fun i : Nat => PollResp.exc)

/-- C4 counterexample: with a server that delivers tokens on the 13th
poll (12 waiting responses first), the resumed `complete_2fa_login` loop
times out after its 10-attempt cap — refuting "every login polling loop
... polls up to 30 attempts" — while the initial `complete_login_flow`
loop, which really is capped at 30, succeeds on the same script. -/
theorem complete_2fa_login_poll_cap_10 :
    (complete_2fa_login_poll
      (fun i => if i < 12 then PollResp.tokens [] [] true
        else PollResp.tokens ['x'] [] false)).1 = LoginResult.timeout ∧
    (complete_login_flow_poll
      (fun i => if i < 12 then PollResp.tokens [] [] true
        else PollResp.tokens ['x'] [] false)).1 =
      LoginResult.success ['x'] [] := by
  exact ⟨rfl, rfl⟩

/-! ## Authenticator enrolment (`AccountLinker.finalize_authenticator`)

The `FinalizeAddAuthenticator` loop is embedded over the script of parsed
`_parse_finalize_response` dictionaries (`status`, `server_time`,
`want_more`, `success`, each absent when the response lacked the field) —
`.noResponse` models `_send_twofactor_request` returning `None`.  The
trace records each request body sent and each `await asyncio.sleep(0.5)`. -/

inductive FinResp where
  | noResponse
  | resp (status : Option Nat) (server_time : Option Nat)
      (want_more success : Bool)
deriving DecidableEq

inductive FinEvent where
  | request (bytes : List Nat)
  | sleepHalfSecond
deriving DecidableEq

inductive FinResult where
  | ok
  | noResp
  | badCode
  | steamError (status : Option Nat)
  | timeout
  | exc
deriving DecidableEq

/-- `AccountLinker._encode_varint` (`while value > 127`). -/
def encode_varint (value : Nat) : List Nat :=
  if 127 < value then (value &&& 0x7F ||| 0x80) :: encode_varint (value >>> 7)
  else [value &&& 0x7F]
termination_by value
decreasing_by
  simp only [Nat.shiftRight_eq_div_pow]
  omega

/-- `AccountLinker._build_finalize_request(auth_code, auth_time, sms_code)`:
field 1 steamid (varint), field 2 authenticator_code (string), field 3
authenticator_time (varint), field 4 activation_code (string), field 6
validate_sms_code = true. -/
def build_finalize_request (steamid : Nat) (auth_code : List Char)
    (auth_time : Nat) (sms_code : List Char) : List Nat :=
  [0x08] ++ encode_varint steamid ++
    [0x12] ++ encode_varint (auth_code.map Char.toNat).length ++
      auth_code.map Char.toNat ++
    [0x18] ++ encode_varint auth_time ++
    [0x22] ++ encode_varint (sms_code.map Char.toNat).length ++
      sms_code.map Char.toNat ++
    [0x30, 0x01]

/-- The `for attempt in range(30)` loop of `finalize_authenticator`:
regenerate the authenticator code from the current `server_time`, send,
then classify: missing response → error; `status != 1` → bad-code error
for 89 and a generic Steam error otherwise; `success` → done; `want_more`
→ adopt the response's `server_time` (defaulting to +30), sleep 0.5 s and
go round again; anything else breaks out; an exhausted attempt budget is
the timeout error.  `.exc` models the caught exception when the shared
secret fails to decode or the interval overflows `to_bytes`. -/
def finalize_loop (steamid : Nat) (shared_secret sms_code : List Char) :
    Nat → List FinResp → Nat → FinResult × List FinEvent
  | _, _, 0 => (.timeout, [])
  | server_time, script, n + 1 =>
    match generate_auth_code shared_secret server_time with
    | none => (.exc, [])
    | some auth_code =>
      let req := build_finalize_request steamid auth_code (server_time / 30) sms_code
      match script with
      | [] => (.noResp, [.request req])
      | r :: rest =>
        match r with
        | .noResponse => (.noResp, [.request req])
        | .resp status stime wm succ =>
          if status ≠ some 1 then
            if status = some 89 then (.badCode, [.request req])
            else (.steamError status, [.request req])
          else if succ then (.ok, [.request req])
          else if wm then
            let next := finalize_loop steamid shared_secret sms_code
              (stime.getD (server_time + 30)) rest n
            (next.1, .request req :: .sleepHalfSecond :: next.2)
          else (.timeout, [.request req])

/-- `AccountLinker.finalize_authenticator(sms_code, shared_secret,
server_time)` (the response script stands for the successive Steam
responses). -/
def finalize_authenticator (steamid : Nat) (shared_secret sms_code : List Char)
    (server_time : Nat) (script : List FinResp) : FinResult × List FinEvent :=
  finalize_loop steamid shared_secret sms_code server_time script 30

/-- The round server-times as the spec words them: the first round uses the
given `server_time`; while the response signals "want more" (`status` OK,
not successful, `want_more` set) the next round uses the response's updated
`server_time`, defaulting to the previous value plus 30. -/
def specRoundTimes : Nat → Nat → List FinResp → List Nat
  | 0, _, _ => []
  | _ + 1, st, [] => [st]
  | n + 1, st, r :: rest =>
    st :: (match r with
      | .noResponse => []
      | .resp status stime wm succ =>
        if status = some 1 ∧ wm = true ∧ succ = false then
          specRoundTimes n (stime.getD (st + 30)) rest
        else [])

/-- Request events separated by the half-second sleeps; `b` records whether
the loop went round again after the last request (trailing sleep). -/
def requestsWithSleeps : List (List Nat) → Bool → List FinEvent
  | [], _ => []
  | [r], true => [.request r, .sleepHalfSecond]
  | [r], false => [.request r]
  | r :: r2 :: rest, b =>
    .request r :: .sleepHalfSecond :: requestsWithSleeps (r2 :: rest) b

/-- Time bound carried by the responses in a script. -/
def respTimeOk : FinResp → Prop
  | .resp _ (some t) _ _ => t < 2 ^ 64
  | _ => True

theorem specRoundTimes_length_le :
    ∀ (fuel st : Nat) (script : List FinResp),
      (specRoundTimes fuel st script).length ≤ fuel := by
  intro fuel
  induction fuel with
  | zero => intro st script; simp [specRoundTimes]
  | succ n ih =>
    intro st script
    cases script with
    | nil => simp [specRoundTimes]
    | cons r rest =>
      cases r with
      | noResponse => simp [specRoundTimes]
      | resp status stime wm succ =>
        rcases status with _ | sv
        · simp [specRoundTimes]
        · by_cases h1 : sv = 1
          · subst h1
            cases wm <;> cases succ <;> simp [specRoundTimes] <;> exact ih _ _
          · rw [specRoundTimes]
            simp [h1]

theorem generate_auth_code_some (shared_secret : List Char) (sec : List Nat)
    (hsec : b64decode shared_secret = some sec) (t : Nat) (ht : t / 30 < 2 ^ 64) :
    generate_auth_code shared_secret t =
      some (guardCodeChars (guardCodeInt (hmacSha1 sec (toBytesBE 8 (t / 30)))) 5) := by
  simp only [generate_auth_code, hsec]
  exact if_pos ht

/-- The enrolment loop sends, on every round it performs, exactly the
request built from the authenticator code for that round's server time and
the unchanged activation code, with the half-second sleep between rounds. -/
theorem finalize_loop_trace (steamid : Nat) (shared_secret sms_code : List Char)
    (sec : List Nat) (hsec : b64decode shared_secret = some sec) :
    ∀ (fuel st : Nat) (script : List FinResp),
      fuel ≤ 30 → st + 30 * fuel ≤ 2 ^ 64 + 900 →
      (∀ r ∈ script, respTimeOk r) →
      ∃ b : Bool,
        (finalize_loop steamid shared_secret sms_code st script fuel).2 =
          requestsWithSleeps ((specRoundTimes fuel st script).map
            (fun t => build_finalize_request steamid
              ((generate_auth_code shared_secret t).getD []) (t / 30) sms_code)) b := by
  intro fuel
  induction fuel with
  | zero =>
    intro st script _ _ _
    exact ⟨false, by simp [finalize_loop, specRoundTimes, requestsWithSleeps]⟩
  | succ n ih =>
    intro st script hfuel hst hscript
    have hdiv : st / 30 < 2 ^ 64 := by
      have h1 : st ≤ 2 ^ 64 + 900 := by omega
      have h2 : st / 30 ≤ (2 ^ 64 + 900) / 30 := Nat.div_le_div_right h1
      have h3 : (2 ^ 64 + 900) / 30 < 2 ^ 64 := by norm_num
      omega
    have hgen := generate_auth_code_some shared_secret sec hsec st hdiv
    cases script with
    | nil =>
      exact ⟨false, by simp [finalize_loop, hgen, specRoundTimes, requestsWithSleeps]⟩
    | cons r rest =>
      cases r with
      | noResponse =>
        exact ⟨false, by simp [finalize_loop, hgen, specRoundTimes, requestsWithSleeps]⟩
      | resp status stime wm succ =>
        by_cases h1 : status = some 1
        · subst h1
          cases succ with
          | true =>
            refine ⟨false, ?_⟩
            simp [finalize_loop, hgen, specRoundTimes, requestsWithSleeps]
          | false =>
            cases wm with
            | false =>
              refine ⟨false, ?_⟩
              simp [finalize_loop, hgen, specRoundTimes, requestsWithSleeps]
            | true =>
              have hstok : respTimeOk (FinResp.resp (some 1) stime true false) :=
                hscript _ (List.mem_cons_self _ _)
              have hst' : stime.getD (st + 30) + 30 * n ≤ 2 ^ 64 + 900 := by
                cases stime with
                | none => simp only [Option.getD_none]; omega
                | some tv =>
                  simp only [Option.getD_some]
                  simp only [respTimeOk] at hstok
                  omega
              obtain ⟨b, hb⟩ := ih (stime.getD (st + 30)) rest (by omega) hst'
                (fun q hq => hscript q (List.mem_cons_of_mem _ hq))
              cases hsr : (specRoundTimes n (stime.getD (st + 30)) rest).map
                  (fun t => build_finalize_request steamid
                    ((generate_auth_code shared_secret t).getD []) (t / 30)
                    sms_code) with
              | nil =>
                rw [hsr] at hb
                refine ⟨true, ?_⟩
                simp only [requestsWithSleeps] at hb
                simp [finalize_loop, hgen, specRoundTimes, requestsWithSleeps,
                  hsr, hb]
              | cons q qs =>
                rw [hsr] at hb
                refine ⟨b, ?_⟩
                simp [finalize_loop, hgen, specRoundTimes, requestsWithSleeps,
                  hsr, hb]
        · refine ⟨false, ?_⟩
          have hspec : specRoundTimes (n + 1) st
              (FinResp.resp status stime wm succ :: rest) = [st] := by
            rw [specRoundTimes]
            rcases status with _ | sv
            · simp
            · cases wm <;> cases succ <;>
                simp <;> intro he <;> exact absurd (by rw [he]) h1
          by_cases h89 : status = some 89
          · subst h89
            simp [finalize_loop, hgen, hspec, requestsWithSleeps]
          · simp [finalize_loop, hgen, hspec, requestsWithSleeps, h1, h89]

/-- A response that makes the loop go round again: `status` OK, not yet
successful, `want_more` set. -/
def wantMoreResp : FinResp → Prop
  | .noResponse => False
  | .resp status _ wm succ => status = some 1 ∧ wm = true ∧ succ = false

theorem finalize_loop_timeout (steamid : Nat) (shared_secret sms_code : List Char)
    (sec : List Nat) (hsec : b64decode shared_secret = some sec) :
    ∀ (fuel st : Nat) (script : List FinResp),
      fuel ≤ 30 → st + 30 * fuel ≤ 2 ^ 64 + 900 →
      (∀ r ∈ script, respTimeOk r) → (∀ r ∈ script, wantMoreResp r) →
      fuel ≤ script.length →
      (finalize_loop steamid shared_secret sms_code st script fuel).1 =
        FinResult.timeout := by
  intro fuel
  induction fuel with
  | zero => intro st script _ _ _ _ _; rfl
  | succ n ih =>
    intro st script hfuel hst hok hwm hlen
    have hdiv : st / 30 < 2 ^ 64 := by
      have h1 : st ≤ 2 ^ 64 + 900 := by omega
      have h2 : st / 30 ≤ (2 ^ 64 + 900) / 30 := Nat.div_le_div_right h1
      have h3 : (2 ^ 64 + 900) / 30 < 2 ^ 64 := by norm_num
      omega
    have hgen := generate_auth_code_some shared_secret sec hsec st hdiv
    cases script with
    | nil => simp at hlen
    | cons r rest =>
      cases r with
      | noResponse => exact absurd (hwm _ (List.mem_cons_self _ _)) (by simp [wantMoreResp])
      | resp status stime wm succ =>
        obtain ⟨hs1, hw1, hsu1⟩ := hwm _ (List.mem_cons_self _ _)
        subst hs1
        subst hw1
        subst hsu1
        have hstok := hok _ (List.mem_cons_self _ _)
        have hst' : stime.getD (st + 30) + 30 * n ≤ 2 ^ 64 + 900 := by
          cases stime with
          | none => simp only [Option.getD_none]; omega
          | some tv =>
            simp only [Option.getD_some]
            simp only [respTimeOk] at hstok
            omega
        have := ih (stime.getD (st + 30)) rest (by omega) hst'
          (fun q hq => hok q (List.mem_cons_of_mem _ hq))
          (fun q hq => hwm q (List.mem_cons_of_mem _ hq))
          (by simpa using Nat.le_of_succ_le_succ (by simpa using hlen))
        simp [finalize_loop, hgen, this]

theorem finalize_loop_badCode (steamid : Nat) (shared_secret sms_code : List Char)
    (sec : List Nat) (hsec : b64decode shared_secret = some sec)
    (st : Nat) (hdiv : st / 30 < 2 ^ 64) (stime : Option Nat) (wm succ : Bool)
    (rest : List FinResp) (n : Nat) :
    (finalize_loop steamid shared_secret sms_code st
      (FinResp.resp (some 89) stime wm succ :: rest) (n + 1)).1 =
      FinResult.badCode := by
  have hgen := generate_auth_code_some shared_secret sec hsec st hdiv
  simp [finalize_loop, hgen]

/-- C5: for every response script (with representable server times) and
every decodable shared secret, `finalize_authenticator`
(1) sends on each round exactly the `FinalizeAddAuthenticator` request
built from the authenticator code generated from `shared_secret` and that
round's `server_time` — the initial argument for the first round and each
"want more" response's updated `server_time` (default previous + 30) after
that — together with the same user-entered activation code, with the 0.5 s
sleep between consecutive rounds;
(2) performs at most 30 rounds;
(3) returns the timeout error when the server keeps answering "want more"
for the whole 30-round budget; and
(4) answers a response with status 89 with the distinct bad-code error,
not a generic failure. -/
theorem finalize_authenticator_correct (steamid : Nat)
    (shared_secret sms_code : List Char) (sec : List Nat) (server_time : Nat)
    (script : List FinResp)
    (hsec : b64decode shared_secret = some sec)
    (hst : server_time < 2 ^ 64)
    (hscript : ∀ r ∈ script, respTimeOk r) :
    (∃ b : Bool,
      (finalize_authenticator steamid shared_secret sms_code server_time script).2 =
        requestsWithSleeps ((specRoundTimes 30 server_time script).map
          (fun t => build_finalize_request steamid
            ((generate_auth_code shared_secret t).getD []) (t / 30) sms_code)) b) ∧
    (specRoundTimes 30 server_time script).length ≤ 30 ∧
    ((∀ r ∈ script, wantMoreResp r) → 30 ≤ script.length →
      (finalize_authenticator steamid shared_secret sms_code server_time script).1 =
        FinResult.timeout) ∧
    (∀ (stime : Option Nat) (wm succ : Bool) (rest2 : List FinResp),
      (finalize_authenticator steamid shared_secret sms_code server_time
        (FinResp.resp (some 89) stime wm succ :: rest2)).1 =
        FinResult.badCode) := by
  have hbound : server_time + 30 * 30 ≤ 2 ^ 64 + 900 := by omega
  have hdiv : server_time / 30 < 2 ^ 64 := by
    have h2 : server_time / 30 ≤ server_time := Nat.div_le_self _ _
    omega
  refine ⟨finalize_loop_trace steamid shared_secret sms_code sec hsec 30
      server_time script (by omega) hbound hscript,
    specRoundTimes_length_le 30 server_time script,
    fun hwm hlen => finalize_loop_timeout steamid shared_secret sms_code sec hsec
      30 server_time script (by omega) hbound hscript hwm hlen,
    fun stime wm succ rest2 => finalize_loop_badCode steamid shared_secret
      sms_code sec hsec server_time hdiv stime wm succ rest2 29⟩

/-- C5 witness: the theorem applied at a concrete secret, activation code,
initial server time and two-round script (one "want more" with an updated
server time, then success). -/
theorem finalize_authenticator_correct_witness :
    (∃ b : Bool,
      (finalize_authenticator 7 "AAAA".toList "12345".toList 1000
        [FinResp.resp (some 1) (some 2000) true false,
         FinResp.resp (some 1) none false true]).2 =
        requestsWithSleeps ((specRoundTimes 30 1000
          [FinResp.resp (some 1) (some 2000) true false,
           FinResp.resp (some 1) none false true]).map
          (fun t => build_finalize_request 7
            ((generate_auth_code "AAAA".toList t).getD []) (t / 30)
            "12345".toList)) b) ∧
    (specRoundTimes 30 1000
      [FinResp.resp (some 1) (some 2000) true false,
       FinResp.resp (some 1) none false true]).length ≤ 30 ∧
    ((∀ r ∈ [FinResp.resp (some 1) (some 2000) true false,
        FinResp.resp (some 1) none false true], wantMoreResp r) →
      30 ≤ ([FinResp.resp (some 1) (some 2000) true false,
        FinResp.resp (some 1) none false true] : List FinResp).length →
      (finalize_authenticator 7 "AAAA".toList "12345".toList 1000
        [FinResp.resp (some 1) (some 2000) true false,
         FinResp.resp (some 1) none false true]).1 = FinResult.timeout) ∧
    (∀ (stime : Option Nat) (wm succ : Bool) (rest2 : List FinResp),
      (finalize_authenticator 7 "AAAA".toList "12345".toList 1000
        (FinResp.resp (some 89) stime wm succ :: rest2)).1 =
        FinResult.badCode) :=
  finalize_authenticator_correct 7 "AAAA".toList "12345".toList [0, 0, 0] 1000
    [FinResp.resp (some 1) (some 2000) true false,
     FinResp.resp (some 1) none false true]
    (by decide) (by norm_num)
    (by intro r hr
        rcases List.mem_cons.mp hr with h | hr2
        · subst h; norm_num [respTimeOk]
        · rcases List.mem_cons.mp hr2 with h | h
          · subst h; simp [respTimeOk]
          · simp at h)

/-! ## Manifest account list (`Manifest.add_account` / `remove_account` /
`get_account`)

The account objects are embedded with the fields the list operations
consult (`account_name`) plus representative payload fields; the remaining
profile/session fields of `SteamGuardAccount` do not influence these
operations.  Persistence (`self.save(...)`) rewrites the same list to disk
and is outside the in-memory list invariant. -/

structure GuardAccount where
  account_name : List Char
  shared_secret : List Char
  identity_secret : List Char
  device_id : List Char
deriving DecidableEq

/-- `Manifest.add_account`: drop any account with the same name, then
append. -/
def add_account (accounts : List GuardAccount) (account : GuardAccount) :
    List GuardAccount :=
  (accounts.filter (fun a => a.account_name ≠ account.account_name)) ++ [account]

/-- `Manifest.remove_account`: drop every account with the name. -/
def remove_account (accounts : List GuardAccount) (account_name : List Char) :
    List GuardAccount :=
  accounts.filter (fun a => a.account_name ≠ account_name)

/-- `Manifest.get_account`: first account with the name, else `None`. -/
def get_account (accounts : List GuardAccount) (account_name : List Char) :
    Option GuardAccount :=
  accounts.find? (fun a => a.account_name = account_name)

inductive ManifestOp where
  | add (account : GuardAccount)
  | remove (account_name : List Char)

def apply_ops (accounts : List GuardAccount) (ops : List ManifestOp) :
    List GuardAccount :=
  ops.foldl
    (fun acc op =>
      match op with
      | .add a => add_account acc a
      | .remove n => remove_account acc n)
    accounts

/-- The lookup result the claim predicts after a sequence of operations:
the most recently added account with the name, erased by a later remove,
starting from whatever the initial list held. -/
def manifestSpecGet (name : List Char) (ops : List ManifestOp)
    (init : Option GuardAccount) : Option GuardAccount :=
  ops.foldl
    (fun cur op =>
      match op with
      | .add a => if a.account_name = name then some a else cur
      | .remove n => if n = name then none else cur)
    init

theorem find?_filter_transparent (p q : GuardAccount → Bool) (l : List GuardAccount)
    (h : ∀ x, p x = true → q x = true) :
    (l.filter q).find? p = l.find? p := by
  induction l with
  | nil => rfl
  | cons a rest ih =>
    by_cases hp : p a = true
    · rw [List.filter_cons, if_pos (h a hp)]
      simp [List.find?_cons, hp, ih]
    · rw [List.filter_cons]
      by_cases hq : q a = true
      · rw [if_pos hq]
        simp only [List.find?_cons]
        rw [Bool.not_eq_true] at hp
        simp [hp, ih]
      · rw [if_neg hq, ih]
        simp only [List.find?_cons]
        rw [Bool.not_eq_true] at hp
        simp [hp]

theorem find?_filter_none (p q : GuardAccount → Bool) (l : List GuardAccount)
    (h : ∀ x, p x = true → q x = false) :
    (l.filter q).find? p = none := by
  induction l with
  | nil => rfl
  | cons a rest ih =>
    rw [List.filter_cons]
    by_cases hq : q a = true
    · rw [if_pos hq]
      simp only [List.find?_cons]
      have hp2 : p a = false := by
        cases hpv : p a
        · rfl
        · exact absurd (h a hpv) (by simp [hq])
      simp [hp2, ih]
    · rw [if_neg hq, ih]

theorem get_account_add (accounts : List GuardAccount) (a : GuardAccount)
    (g : List Char) :
    get_account (add_account accounts a) g =
      if a.account_name = g then some a else get_account accounts g := by
  rw [get_account, add_account, List.find?_append]
  by_cases hg : a.account_name = g
  · rw [if_pos hg]
    have hnone : ((accounts.filter
        (fun x => x.account_name ≠ a.account_name)).find?
        (fun x => x.account_name = g)) = none := by
      apply find?_filter_none
      intro x hx
      simp only [decide_eq_true_eq] at hx
      simp [hx, hg]
    rw [hnone]
    simp [hg]
  · rw [if_neg hg]
    have htrans : ((accounts.filter
        (fun x => x.account_name ≠ a.account_name)).find?
        (fun x => x.account_name = g)) =
        accounts.find? (fun x => x.account_name = g) := by
      apply find?_filter_transparent
      intro x hx
      simp only [decide_eq_true_eq] at hx
      simp [hx]
      intro he
      exact hg (he ▸ rfl)
    rw [htrans, get_account]
    cases hf : accounts.find? (fun x => x.account_name = g) with
    | some v => simp
    | none => simp [hg]

theorem get_account_remove (accounts : List GuardAccount) (n g : List Char) :
    get_account (remove_account accounts n) g =
      if n = g then none else get_account accounts g := by
  rw [get_account, remove_account]
  by_cases hg : n = g
  · rw [if_pos hg]
    apply find?_filter_none
    intro x hx
    simp only [decide_eq_true_eq] at hx
    simp [hx, hg]
  · rw [if_neg hg]
    apply find?_filter_transparent
    intro x hx
    simp only [decide_eq_true_eq] at hx
    simp [hx]
    intro he
    exact hg (he ▸ rfl)

theorem names_nodup_add (accounts : List GuardAccount) (a : GuardAccount)
    (h : (accounts.map (·.account_name)).Nodup) :
    ((add_account accounts a).map (·.account_name)).Nodup := by
  rw [add_account, List.map_append]
  rw [List.nodup_append]
  refine ⟨?_, by simp, ?_⟩
  · exact h.sublist ((List.filter_sublist accounts).map (·.account_name))
  · intro x hx
    simp only [List.mem_map] at hx
    obtain ⟨y, hy, rfl⟩ := hx
    have := List.of_mem_filter hy
    simp only [decide_eq_true_eq] at this
    simpa using this

theorem names_nodup_remove (accounts : List GuardAccount) (n : List Char)
    (h : (accounts.map (·.account_name)).Nodup) :
    ((remove_account accounts n).map (·.account_name)).Nodup :=
  h.sublist ((List.filter_sublist accounts).map (·.account_name))

/-- C10: starting from a manifest whose account names are distinct, any
sequence of `add_account` / `remove_account` operations keeps the account
names distinct (so the list never holds two accounts with the same
`account_name`), and `get_account(name)` afterwards returns exactly the
most recently added account with that name — erased again by a later
`remove_account` — falling back to the initial list's (unique) holder of
the name when the operations never touched it. -/
theorem manifest_account_list_invariant (accounts : List GuardAccount)
    (ops : List ManifestOp)
    (hnodup : (accounts.map (·.account_name)).Nodup) :
    ((apply_ops accounts ops).map (·.account_name)).Nodup ∧
    (∀ name, get_account (apply_ops accounts ops) name =
      manifestSpecGet name ops (get_account accounts name)) := by
  induction ops generalizing accounts with
  | nil => exact ⟨hnodup, fun name => rfl⟩
  | cons op rest ih =>
    cases op with
    | add a =>
      have h1 := names_nodup_add accounts a hnodup
      obtain ⟨hn, hg⟩ := ih (add_account accounts a) h1
      refine ⟨hn, fun name => ?_⟩
      rw [apply_ops] at *
      simp only [List.foldl_cons]
      rw [hg name]
      simp only [manifestSpecGet, List.foldl_cons, get_account_add]
    | remove n =>
      have h1 := names_nodup_remove accounts n hnodup
      obtain ⟨hn, hg⟩ := ih (remove_account accounts n) h1
      refine ⟨hn, fun name => ?_⟩
      rw [apply_ops] at *
      simp only [List.foldl_cons]
      rw [hg name]
      simp only [manifestSpecGet, List.foldl_cons, get_account_remove]

/-- C10 witness: the invariant applied to a concrete two-account manifest
and a concrete add/remove/add sequence. -/
theorem manifest_account_list_invariant_witness :
    ((apply_ops [⟨"alice".toList, [], [], []⟩, ⟨"bob".toList, [], [], []⟩]
      [ManifestOp.add ⟨"alice".toList, ['s'], [], []⟩,
       ManifestOp.remove "bob".toList,
       ManifestOp.add ⟨"carol".toList, [], [], []⟩]).map (·.account_name)).Nodup ∧
    (∀ name, get_account (apply_ops
        [⟨"alice".toList, [], [], []⟩, ⟨"bob".toList, [], [], []⟩]
        [ManifestOp.add ⟨"alice".toList, ['s'], [], []⟩,
         ManifestOp.remove "bob".toList,
         ManifestOp.add ⟨"carol".toList, [], [], []⟩]) name =
      manifestSpecGet name
        [ManifestOp.add ⟨"alice".toList, ['s'], [], []⟩,
         ManifestOp.remove "bob".toList,
         ManifestOp.add ⟨"carol".toList, [], [], []⟩]
        (get_account [⟨"alice".toList, [], [], []⟩, ⟨"bob".toList, [], [], []⟩]
          name)) :=
  manifest_account_list_invariant
    [⟨"alice".toList, [], [], []⟩, ⟨"bob".toList, [], [], []⟩]
    [ManifestOp.add ⟨"alice".toList, ['s'], [], []⟩,
     ManifestOp.remove "bob".toList,
     ManifestOp.add ⟨"carol".toList, [], [], []⟩]
    (by decide)

/-! ## AES-256 (FIPS 197)

The `cryptography` library primitives behind `Manifest.encrypt_data` /
`decrypt_data` (AES-256-GCM) and `encrypt_sda_data` / `decrypt_sda_data`
(AES-256-CBC) are embedded from their standards.  GF(2^8) arithmetic works
on `Nat` bytes; `xtime` is multiplication by `x` modulo the AES polynomial
`0x11B`, phrased through `testBit` so that it is xor-linear on all of
`Nat`. -/

def xtime (a : Nat) : Nat := 2 * a ^^^ (if a.testBit 7 then 0x11B else 0)

def mul2 (a : Nat) : Nat := xtime a
def mul3 (a : Nat) : Nat := xtime a ^^^ a
def mul9 (a : Nat) : Nat := xtime (xtime (xtime a)) ^^^ a
def mul11 (a : Nat) : Nat := xtime (xtime (xtime a)) ^^^ xtime a ^^^ a
def mul13 (a : Nat) : Nat := xtime (xtime (xtime a)) ^^^ xtime (xtime a) ^^^ a
def mul14 (a : Nat) : Nat := xtime (xtime (xtime a)) ^^^ xtime (xtime a) ^^^ xtime a

/-- Russian-peasant GF(2^8) product (for the S-box field inverse). -/
def gmulAux : Nat → Nat → Nat → Nat → Nat
  | 0, _, _, p => p
  | fuel + 1, a, b, p =>
    gmulAux fuel (xtime a) (b / 2) (if b % 2 = 1 then p ^^^ a else p)

def gmul (a b : Nat) : Nat := gmulAux 8 a b 0

def gpow (a : Nat) : Nat → Nat
  | 0 => 1
  | n + 1 => gmul a (gpow a n)

/-- GF(2^8) multiplicative inverse `a^254` (0 maps to 0), computed by
square-and-multiply: `254 = 2 + 4 + 8 + 16 + 32 + 64 + 128`. -/
def ginv (a : Nat) : Nat :=
  let a2 := gmul a a
  let a4 := gmul a2 a2
  let a8 := gmul a4 a4
  let a16 := gmul a8 a8
  let a32 := gmul a16 a16
  let a64 := gmul a32 a32
  let a128 := gmul a64 a64
  gmul a2 (gmul a4 (gmul a8 (gmul a16 (gmul a32 (gmul a64 a128)))))

def rotl8 (b n : Nat) : Nat := b * 2 ^ n % 256 ||| b / 2 ^ (8 - n)

/-- The AES S-box: field inverse followed by the affine transform. -/
def sbox (x : Nat) : Nat :=
  ginv x ^^^ rotl8 (ginv x) 1 ^^^ rotl8 (ginv x) 2 ^^^ rotl8 (ginv x) 3 ^^^
    rotl8 (ginv x) 4 ^^^ 0x63

/-- The inverse S-box: inverse affine transform, then field inverse. -/
def invSbox (y : Nat) : Nat :=
  ginv (rotl8 y 1 ^^^ rotl8 y 3 ^^^ rotl8 y 6 ^^^ 0x05)

theorem xor_left_comm (a b c : Nat) : a ^^^ (b ^^^ c) = b ^^^ (a ^^^ c) := by
  rw [← Nat.xor_assoc, Nat.xor_comm a b, Nat.xor_assoc]

theorem two_mul_xor (a b : Nat) : 2 * (a ^^^ b) = 2 * a ^^^ 2 * b := by
  apply Nat.eq_of_testBit_eq
  intro i
  rcases i with _ | j
  · simp [Nat.testBit_zero, Nat.testBit_xor, Nat.mul_mod_right]
  · have h : ∀ z : Nat, (2 * z).testBit (j + 1) = z.testBit j := by
      intro z
      rw [show 2 * z = z <<< 1 by rw [Nat.shiftLeft_eq]; ring]
      simp [Nat.testBit_shiftLeft]
    simp [Nat.testBit_xor, h]

theorem xtime_xor (x y : Nat) : xtime (x ^^^ y) = xtime x ^^^ xtime y := by
  unfold xtime
  rw [Nat.testBit_xor]
  cases hx : x.testBit 7 <;> cases hy : y.testBit 7 <;>
    simp [two_mul_xor] <;>
    simp [Nat.xor_assoc, Nat.xor_comm, xor_left_comm]

theorem mul2_xor (x y : Nat) : mul2 (x ^^^ y) = mul2 x ^^^ mul2 y := xtime_xor x y

theorem mul3_xor (x y : Nat) : mul3 (x ^^^ y) = mul3 x ^^^ mul3 y := by
  simp only [mul3, xtime_xor]
  simp [Nat.xor_assoc, Nat.xor_comm, xor_left_comm]

theorem mul9_xor (x y : Nat) : mul9 (x ^^^ y) = mul9 x ^^^ mul9 y := by
  simp only [mul9, xtime_xor]
  simp [Nat.xor_assoc, Nat.xor_comm, xor_left_comm]

theorem mul11_xor (x y : Nat) : mul11 (x ^^^ y) = mul11 x ^^^ mul11 y := by
  simp only [mul11, xtime_xor]
  simp [Nat.xor_assoc, Nat.xor_comm, xor_left_comm]

theorem mul13_xor (x y : Nat) : mul13 (x ^^^ y) = mul13 x ^^^ mul13 y := by
  simp only [mul13, xtime_xor]
  simp [Nat.xor_assoc, Nat.xor_comm, xor_left_comm]

theorem mul14_xor (x y : Nat) : mul14 (x ^^^ y) = mul14 x ^^^ mul14 y := by
  simp only [mul14, xtime_xor]
  simp [Nat.xor_assoc, Nat.xor_comm, xor_left_comm]

theorem xtime_lt : ∀ a < 256, xtime a < 256 := by decide

theorem xor_lt_256 (a b : Nat) (ha : a < 256) (hb : b < 256) : a ^^^ b < 256 := by
  have ha' : a < 2 ^ 8 := ha
  have hb' : b < 2 ^ 8 := hb
  exact Nat.xor_lt_two_pow ha' hb'

theorem mul2_lt : ∀ a < 256, mul2 a < 256 := by decide
theorem mul3_lt : ∀ a < 256, mul3 a < 256 := by decide
theorem mul9_lt : ∀ a < 256, mul9 a < 256 := by decide
theorem mul11_lt : ∀ a < 256, mul11 a < 256 := by decide
theorem mul13_lt : ∀ a < 256, mul13 a < 256 := by decide
theorem mul14_lt : ∀ a < 256, mul14 a < 256 := by decide

theorem gmulAux_lt : ∀ (fuel a b p : Nat), a < 256 → p < 256 →
    gmulAux fuel a b p < 256 := by
  intro fuel
  induction fuel with
  | zero => intro a b p _ hp; exact hp
  | succ n ih =>
    intro a b p ha hp
    rw [gmulAux]
    apply ih _ _ _ (xtime_lt a ha)
    split
    · exact xor_lt_256 p a hp ha
    · exact hp

theorem gmul_lt (a b : Nat) (ha : a < 256) : gmul a b < 256 :=
  gmulAux_lt 8 a b 0 ha (by omega)

theorem gpow_lt (a : Nat) (ha : a < 256) : ∀ n, gpow a n < 256 := by
  intro n
  cases n with
  | zero => simp [gpow]
  | succ k => exact gmul_lt a _ ha

theorem sbox_lt : ∀ x < 256, sbox x < 256 := by decide

theorem invSbox_lt : ∀ x < 256, invSbox x < 256 := by decide

theorem invSbox_sbox : ∀ x < 256, invSbox (sbox x) = x := by decide

/-- An AES state column as a 4-tuple of bytes. -/
abbrev Col := Nat × Nat × Nat × Nat

def xorCol (x y : Col) : Col :=
  (x.1 ^^^ y.1, x.2.1 ^^^ y.2.1, x.2.2.1 ^^^ y.2.2.1, x.2.2.2 ^^^ y.2.2.2)

/-- MixColumns on one column (FIPS 197 §5.1.3). -/
def mixColT (a : Col) : Col :=
  (mul2 a.1 ^^^ mul3 a.2.1 ^^^ a.2.2.1 ^^^ a.2.2.2,
   a.1 ^^^ mul2 a.2.1 ^^^ mul3 a.2.2.1 ^^^ a.2.2.2,
   a.1 ^^^ a.2.1 ^^^ mul2 a.2.2.1 ^^^ mul3 a.2.2.2,
   mul3 a.1 ^^^ a.2.1 ^^^ a.2.2.1 ^^^ mul2 a.2.2.2)

/-- InvMixColumns on one column (FIPS 197 §5.3.3). -/
def invMixColT (a : Col) : Col :=
  (mul14 a.1 ^^^ mul11 a.2.1 ^^^ mul13 a.2.2.1 ^^^ mul9 a.2.2.2,
   mul9 a.1 ^^^ mul14 a.2.1 ^^^ mul11 a.2.2.1 ^^^ mul13 a.2.2.2,
   mul13 a.1 ^^^ mul9 a.2.1 ^^^ mul14 a.2.2.1 ^^^ mul11 a.2.2.2,
   mul11 a.1 ^^^ mul13 a.2.1 ^^^ mul9 a.2.2.1 ^^^ mul14 a.2.2.2)

theorem mixColT_xor (x y : Col) :
    mixColT (xorCol x y) = xorCol (mixColT x) (mixColT y) := by
  obtain ⟨x0, x1, x2, x3⟩ := x
  obtain ⟨y0, y1, y2, y3⟩ := y
  simp only [mixColT, xorCol, mul2_xor, mul3_xor, Prod.mk.injEq]
  refine ⟨?_, ?_, ?_, ?_⟩ <;> simp [Nat.xor_assoc, Nat.xor_comm, xor_left_comm]

theorem invMixColT_xor (x y : Col) :
    invMixColT (xorCol x y) = xorCol (invMixColT x) (invMixColT y) := by
  obtain ⟨x0, x1, x2, x3⟩ := x
  obtain ⟨y0, y1, y2, y3⟩ := y
  simp only [invMixColT, xorCol, mul9_xor, mul11_xor, mul13_xor, mul14_xor,
    Prod.mk.injEq]
  refine ⟨?_, ?_, ?_, ?_⟩ <;> simp [Nat.xor_assoc, Nat.xor_comm, xor_left_comm]

theorem invMixColT_mixColT_e0 :
    ∀ a < 256, invMixColT (mixColT (a, 0, 0, 0)) = (a, 0, 0, 0) := by decide
theorem invMixColT_mixColT_e1 :
    ∀ a < 256, invMixColT (mixColT (0, a, 0, 0)) = (0, a, 0, 0) := by decide
theorem invMixColT_mixColT_e2 :
    ∀ a < 256, invMixColT (mixColT (0, 0, a, 0)) = (0, 0, a, 0) := by decide
theorem invMixColT_mixColT_e3 :
    ∀ a < 256, invMixColT (mixColT (0, 0, 0, a)) = (0, 0, 0, a) := by decide

theorem col_split (a0 a1 a2 a3 : Nat) :
    (a0, a1, a2, a3) =
      xorCol (a0, 0, 0, 0) (xorCol (0, a1, 0, 0)
        (xorCol (0, 0, a2, 0) (0, 0, 0, a3))) := by
  simp [xorCol]

theorem invMixColT_mixColT (a : Col) (h0 : a.1 < 256) (h1 : a.2.1 < 256)
    (h2 : a.2.2.1 < 256) (h3 : a.2.2.2 < 256) :
    invMixColT (mixColT a) = a := by
  obtain ⟨a0, a1, a2, a3⟩ := a
  rw [col_split a0 a1 a2 a3, mixColT_xor, mixColT_xor, mixColT_xor,
    invMixColT_xor, invMixColT_xor, invMixColT_xor,
    invMixColT_mixColT_e0 a0 h0, invMixColT_mixColT_e1 a1 h1,
    invMixColT_mixColT_e2 a2 h2, invMixColT_mixColT_e3 a3 h3]

theorem getD_map_range (f : Nat → Nat) (n j : Nat) (hj : j < n) :
    ((List.range n).map f).getD j 0 = f j := by
  rw [List.getD_eq_getElem?_getD, List.getElem?_map, List.getElem?_range hj]
  rfl

theorem getD_lt_256 (s : List Nat) (hs : ∀ b ∈ s, b < 256) (k : Nat) :
    s.getD k 0 < 256 := by
  rcases Nat.lt_or_ge k s.length with h | h
  · rw [List.getD_eq_getElem s 0 h]
    exact hs _ (List.getElem_mem h)
  · rw [List.getD_eq_default s 0 h]
    omega

def colAt (s : List Nat) (c : Nat) : Col :=
  (s.getD (4 * c) 0, s.getD (4 * c + 1) 0, s.getD (4 * c + 2) 0,
    s.getD (4 * c + 3) 0)

def colGet (a : Col) : Nat → Nat
  | 0 => a.1
  | 1 => a.2.1
  | 2 => a.2.2.1
  | _ => a.2.2.2

/-- MixColumns on a 16-byte column-major state. -/
def mixColumns (s : List Nat) : List Nat :=
  (List.range 16).map fun i => colGet (mixColT (colAt s (i / 4))) (i % 4)

def invMixColumns (s : List Nat) : List Nat :=
  (List.range 16).map fun i => colGet (invMixColT (colAt s (i / 4))) (i % 4)

theorem colGet_colAt (s : List Nat) (c k : Nat) (hk : k < 4) :
    colGet (colAt s c) k = s.getD (4 * c + k) 0 := by
  rcases k with _ | _ | _ | _ | k
  · rfl
  · rfl
  · rfl
  · rfl
  · omega

theorem colGet_eta (t : Col) :
    (colGet t 0, colGet t 1, colGet t 2, colGet t 3) = t := by
  obtain ⟨a0, a1, a2, a3⟩ := t
  rfl

theorem colAt_mixColumns (s : List Nat) (c : Nat) (hc : c < 4) :
    colAt (mixColumns s) c = mixColT (colAt s c) := by
  unfold colAt mixColumns
  rw [getD_map_range _ 16 _ (by omega), getD_map_range _ 16 _ (by omega),
    getD_map_range _ 16 _ (by omega), getD_map_range _ 16 _ (by omega)]
  have e0 : 4 * c / 4 = c := by omega
  have e1 : (4 * c + 1) / 4 = c := by omega
  have e2 : (4 * c + 2) / 4 = c := by omega
  have e3 : (4 * c + 3) / 4 = c := by omega
  have m0 : 4 * c % 4 = 0 := by omega
  have m1 : (4 * c + 1) % 4 = 1 := by omega
  have m2 : (4 * c + 2) % 4 = 2 := by omega
  have m3 : (4 * c + 3) % 4 = 3 := by omega
  rw [e0, e1, e2, e3, m0, m1, m2, m3]
  exact colGet_eta _

theorem colAt_lt (s : List Nat) (hs : ∀ b ∈ s, b < 256) (c : Nat) :
    (colAt s c).1 < 256 ∧ (colAt s c).2.1 < 256 ∧ (colAt s c).2.2.1 < 256 ∧
      (colAt s c).2.2.2 < 256 :=
  ⟨getD_lt_256 s hs _, getD_lt_256 s hs _, getD_lt_256 s hs _,
    getD_lt_256 s hs _⟩

theorem invMixColumns_mixColumns (s : List Nat) (hlen : s.length = 16)
    (hs : ∀ b ∈ s, b < 256) : invMixColumns (mixColumns s) = s := by
  apply List.ext_getElem
  · simp [invMixColumns, hlen]
  intro j hj hj2
  have hj16 : j < 16 := by rwa [hlen] at hj2
  rw [← List.getD_eq_getElem (invMixColumns (mixColumns s)) 0 hj,
    ← List.getD_eq_getElem s 0 hj2]
  unfold invMixColumns
  rw [getD_map_range _ 16 _ hj16]
  rw [colAt_mixColumns s (j / 4) (by omega)]
  obtain ⟨h0, h1, h2, h3⟩ := colAt_lt s hs (j / 4)
  rw [invMixColT_mixColT _ h0 h1 h2 h3]
  rw [colGet_colAt s _ _ (by omega)]
  have : 4 * (j / 4) + j % 4 = j := by omega
  rw [this]

def subBytes (s : List Nat) : List Nat := s.map sbox
def invSubBytes (s : List Nat) : List Nat := s.map invSbox

/-- ShiftRows source index: output byte `4*c + r` is input byte
`4*((c + r) % 4) + r` (row `r` rotates left by `r`). -/
def shiftRowsIdx (i : Nat) : Nat := 4 * ((i / 4 + i % 4) % 4) + i % 4

def invShiftRowsIdx (i : Nat) : Nat := 4 * ((i / 4 + 4 - i % 4) % 4) + i % 4

def shiftRows (s : List Nat) : List Nat :=
  (List.range 16).map fun i => s.getD (shiftRowsIdx i) 0

def invShiftRows (s : List Nat) : List Nat :=
  (List.range 16).map fun i => s.getD (invShiftRowsIdx i) 0

theorem shiftRowsIdx_inv : ∀ i < 16,
    invShiftRowsIdx i < 16 ∧ shiftRowsIdx (invShiftRowsIdx i) = i := by decide

theorem invShiftRows_shiftRows (s : List Nat) (hlen : s.length = 16) :
    invShiftRows (shiftRows s) = s := by
  apply List.ext_getElem
  · simp [invShiftRows, hlen]
  intro j hj hj2
  have hj16 : j < 16 := by rwa [hlen] at hj2
  rw [← List.getD_eq_getElem (invShiftRows (shiftRows s)) 0 hj,
    ← List.getD_eq_getElem s 0 hj2]
  obtain ⟨hlt, hcomp⟩ := shiftRowsIdx_inv j hj16
  unfold invShiftRows shiftRows
  rw [getD_map_range _ 16 _ hj16, getD_map_range _ 16 _ hlt, hcomp]

theorem subBytes_length (s : List Nat) : (subBytes s).length = s.length := by
  simp [subBytes]

theorem invSubBytes_length (s : List Nat) :
    (invSubBytes s).length = s.length := by
  simp [invSubBytes]

theorem shiftRows_length (s : List Nat) : (shiftRows s).length = 16 := by
  simp [shiftRows]

theorem invShiftRows_length (s : List Nat) :
    (invShiftRows s).length = 16 := by
  simp [invShiftRows]

theorem mixColumns_length (s : List Nat) : (mixColumns s).length = 16 := by
  simp [mixColumns]

theorem invMixColumns_length (s : List Nat) :
    (invMixColumns s).length = 16 := by
  simp [invMixColumns]

theorem subBytes_lt (s : List Nat) (hs : ∀ b ∈ s, b < 256) :
    ∀ b ∈ subBytes s, b < 256 := by
  intro b hb
  simp only [subBytes, List.mem_map] at hb
  obtain ⟨a, ha, rfl⟩ := hb
  exact sbox_lt a (hs a ha)

theorem shiftRows_lt (s : List Nat) (hs : ∀ b ∈ s, b < 256) :
    ∀ b ∈ shiftRows s, b < 256 := by
  intro b hb
  simp only [shiftRows, List.mem_map] at hb
  obtain ⟨i, _, rfl⟩ := hb
  exact getD_lt_256 s hs _

theorem mixColT_lt (a : Col) (h0 : a.1 < 256) (h1 : a.2.1 < 256)
    (h2 : a.2.2.1 < 256) (h3 : a.2.2.2 < 256) (k : Nat) :
    colGet (mixColT a) k < 256 := by
  obtain ⟨a0, a1, a2, a3⟩ := a
  rcases k with _ | _ | _ | _ | k <;>
    simp only [colGet, mixColT] <;>
    apply xor_lt_256 _ _ (xor_lt_256 _ _ (xor_lt_256 _ _ _ _) _) _
  all_goals first
    | exact mul2_lt _ (by assumption)
    | exact mul3_lt _ (by assumption)
    | assumption

theorem mixColumns_lt (s : List Nat) (hs : ∀ b ∈ s, b < 256) :
    ∀ b ∈ mixColumns s, b < 256 := by
  intro b hb
  simp only [mixColumns, List.mem_map] at hb
  obtain ⟨i, _, rfl⟩ := hb
  obtain ⟨h0, h1, h2, h3⟩ := colAt_lt s hs (i / 4)
  exact mixColT_lt _ h0 h1 h2 h3 _

theorem invSubBytes_subBytes (s : List Nat) (hs : ∀ b ∈ s, b < 256) :
    invSubBytes (subBytes s) = s := by
  unfold invSubBytes subBytes
  rw [List.map_map]
  conv_rhs => rw [← List.map_id s]
  apply List.map_congr_left
  intro a ha
  exact invSbox_sbox a (hs a ha)

/-- Cipher rounds after the initial AddRoundKey: each non-final round is
SubBytes, ShiftRows, MixColumns, AddRoundKey; the final round omits
MixColumns (FIPS 197 §5.1). -/
def encRounds : List (List Nat) → List Nat → List Nat
  | [], s => s
  | [rk], s => zipXor (shiftRows (subBytes s)) rk
  | rk :: rk2 :: rks, s =>
    encRounds (rk2 :: rks) (zipXor (mixColumns (shiftRows (subBytes s))) rk)

/-- Inverse cipher rounds (FIPS 197 §5.3), consuming the same key list as
`encRounds`: the last round key is undone first. -/
def decRounds : List (List Nat) → List Nat → List Nat
  | [], s => s
  | [rk], s => invSubBytes (invShiftRows (zipXor s rk))
  | rk :: rk2 :: rks, s =>
    invSubBytes (invShiftRows (invMixColumns
      (zipXor (decRounds (rk2 :: rks) s) rk)))

def encryptBlock (rks : List (List Nat)) (block : List Nat) : List Nat :=
  match rks with
  | [] => block
  | rk0 :: rest => encRounds rest (zipXor block rk0)

def decryptBlock (rks : List (List Nat)) (ct : List Nat) : List Nat :=
  match rks with
  | [] => ct
  | rk0 :: rest => zipXor (decRounds rest ct) rk0

def stateOk (s : List Nat) : Prop := s.length = 16 ∧ ∀ b ∈ s, b < 256

theorem zipXor_stateOk (s rk : List Nat) (hs : stateOk s) (hrk : stateOk rk) :
    stateOk (zipXor s rk) := by
  obtain ⟨hl, hb⟩ := hs
  obtain ⟨hl2, hb2⟩ := hrk
  refine ⟨?_, zipXor_lt s rk hb hb2⟩
  rw [zipXor_length, hl, hl2]
  simp

theorem subBytes_stateOk (s : List Nat) (hs : stateOk s) :
    stateOk (subBytes s) :=
  ⟨by rw [subBytes_length, hs.1], subBytes_lt s hs.2⟩

theorem shiftRows_stateOk (s : List Nat) (hs : stateOk s) :
    stateOk (shiftRows s) :=
  ⟨shiftRows_length s, shiftRows_lt s hs.2⟩

theorem mixColumns_stateOk (s : List Nat) (hs : stateOk s) :
    stateOk (mixColumns s) :=
  ⟨mixColumns_length s, mixColumns_lt s hs.2⟩

theorem decRounds_encRounds (rks : List (List Nat)) (s : List Nat)
    (hs : stateOk s) (hrk : ∀ rk ∈ rks, stateOk rk) :
    decRounds rks (encRounds rks s) = s := by
  induction rks generalizing s with
  | nil => rfl
  | cons rk rest ih =>
    cases rest with
    | nil =>
      have hrk0 : stateOk rk := hrk rk (by simp)
      have h1 : stateOk (shiftRows (subBytes s)) :=
        shiftRows_stateOk _ (subBytes_stateOk _ hs)
      simp only [encRounds, decRounds]
      rw [zipXor_zipXor _ _ (by rw [h1.1, hrk0.1]),
        invShiftRows_shiftRows _ (by rw [subBytes_length, hs.1]),
        invSubBytes_subBytes _ hs.2]
    | cons rk2 rks2 =>
      have hrk0 : stateOk rk := hrk rk (by simp)
      have h1 : stateOk (mixColumns (shiftRows (subBytes s))) :=
        mixColumns_stateOk _ (shiftRows_stateOk _ (subBytes_stateOk _ hs))
      have h2 : stateOk (zipXor (mixColumns (shiftRows (subBytes s))) rk) :=
        zipXor_stateOk _ _ h1 hrk0
      simp only [encRounds, decRounds]
      rw [ih _ h2 (fun r hr => hrk r (by simp [hr])),
        zipXor_zipXor _ _ (by rw [h1.1, hrk0.1]),
        invMixColumns_mixColumns _ (shiftRows_length _)
          (shiftRows_lt _ (subBytes_stateOk _ hs).2),
        invShiftRows_shiftRows _ (by rw [subBytes_length, hs.1]),
        invSubBytes_subBytes _ hs.2]

theorem decryptBlock_encryptBlock (rks : List (List Nat)) (block : List Nat)
    (hb : stateOk block) (hrk : ∀ rk ∈ rks, stateOk rk) :
    decryptBlock rks (encryptBlock rks block) = block := by
  cases rks with
  | nil => rfl
  | cons rk0 rest =>
    have hrk0 : stateOk rk0 := hrk rk0 (by simp)
    simp only [encryptBlock, decryptBlock]
    rw [decRounds_encRounds rest _ (zipXor_stateOk _ _ hb hrk0)
        (fun r hr => hrk r (by simp [hr])),
      zipXor_zipXor _ _ (by rw [hb.1, hrk0.1])]

def subWord (w : List Nat) : List Nat := w.map sbox

def rotWord : List Nat → List Nat
  | [] => []
  | a :: rest => rest ++ [a]

def rconWord (j : Nat) : List Nat := [gpow 2 (j - 1), 0, 0, 0]

/-- One step of AES key expansion (FIPS 197 §5.2, Nk = 8): word `i` from
words `i - 1` and `i - 8`. -/
def nextWord (w : List (List Nat)) : List Nat :=
  zipXor (w.getD (w.length - 8) [])
    (if w.length % 8 = 0 then
      zipXor (subWord (rotWord (w.getD (w.length - 1) [])))
        (rconWord (w.length / 8))
    else if w.length % 8 = 4 then subWord (w.getD (w.length - 1) [])
    else w.getD (w.length - 1) [])

def expandFrom : Nat → List (List Nat) → List (List Nat)
  | 0, w => w
  | n + 1, w => expandFrom n (w ++ [nextWord w])

/-- AES-256 key expansion: the 8 key words expanded to 60 words. -/
def expandKey (key : List Nat) : List (List Nat) :=
  expandFrom 52 (chunksOf 4 key)

/-- The 15 round keys, 16 bytes each. -/
def roundKeys (key : List Nat) : List (List Nat) :=
  (chunksOf 4 (expandKey key)).map List.flatten

theorem chunksOf4_ok : ∀ (k : Nat) (l : List α), l.length ≤ k →
    4 ∣ l.length →
    (chunksOf 4 l).length * 4 = l.length ∧
      ∀ c ∈ chunksOf 4 l, c.length = 4 ∧ ∀ x ∈ c, x ∈ l := by
  intro k
  induction k with
  | zero =>
    intro l hk _
    have : l = [] := List.length_eq_zero.mp (by omega)
    subst this
    simp [chunksOf]
  | succ k ih =>
    intro l hk hdvd
    cases l with
    | nil => simp [chunksOf]
    | cons a rest =>
      have hlen4 : 4 ≤ (a :: rest).length := by
        rcases hdvd with ⟨m, hm⟩
        have hm1 : 1 ≤ m := by
          by_contra h
          have : m = 0 := by omega
          simp [this] at hm
        simp only [List.length_cons] at hm ⊢
        omega
      have hdrop : 4 ∣ ((a :: rest).drop 4).length := by
        rw [List.length_drop]
        exact Nat.dvd_sub' hdvd (Nat.dvd_refl _)
      have hdk : ((a :: rest).drop 4).length ≤ k := by
        rw [List.length_drop]
        simp only [List.length_cons] at hk ⊢
        omega
      obtain ⟨ihlen, ihmem⟩ := ih _ hdk hdrop
      have heq : chunksOf 4 (a :: rest) =
          (a :: rest).take 4 :: chunksOf 4 ((a :: rest).drop 4) := by
        rw [chunksOf]
      rw [heq]
      constructor
      · simp only [List.length_cons, List.length_drop] at ihlen hlen4 ⊢
        omega
      · intro c hc
        rcases List.mem_cons.mp hc with rfl | hc2
        · refine ⟨by rw [List.length_take]; omega, ?_⟩
          intro x hx
          exact List.mem_of_mem_take hx
        · obtain ⟨hcl, hcm⟩ := ihmem c hc2
          exact ⟨hcl, fun x hx => List.mem_of_mem_drop (hcm x hx)⟩

def wordsOk (w : List (List Nat)) : Prop :=
  ∀ x ∈ w, x.length = 4 ∧ ∀ b ∈ x, b < 256

theorem getD_mem_of_lt (l : List α) (d : α) (k : Nat) (h : k < l.length) :
    l.getD k d ∈ l := by
  rw [List.getD_eq_getElem l d h]
  exact List.getElem_mem h

theorem subWord_ok (t : List Nat) (h : t.length = 4 ∧ ∀ b ∈ t, b < 256) :
    (subWord t).length = 4 ∧ ∀ b ∈ subWord t, b < 256 := by
  refine ⟨by simp [subWord, h.1], ?_⟩
  intro b hb
  simp only [subWord, List.mem_map] at hb
  obtain ⟨a, ha, rfl⟩ := hb
  exact sbox_lt a (h.2 a ha)

theorem rotWord_ok (t : List Nat) (h : t.length = 4 ∧ ∀ b ∈ t, b < 256) :
    (rotWord t).length = 4 ∧ ∀ b ∈ rotWord t, b < 256 := by
  cases t with
  | nil => simp at h
  | cons a rest =>
    refine ⟨?_, ?_⟩
    · have := h.1
      simp only [List.length_cons] at this
      simp only [rotWord, List.length_append, List.length_cons,
        List.length_nil]
      omega
    · intro b hb
      simp only [rotWord, List.mem_append, List.mem_singleton] at hb
      apply h.2
      rcases hb with hb | rfl
      · exact List.mem_cons_of_mem a hb
      · exact List.mem_cons_self _ _

theorem nextWord_ok (w : List (List Nat)) (hw : wordsOk w)
    (h8 : 8 ≤ w.length) :
    (nextWord w).length = 4 ∧ ∀ b ∈ nextWord w, b < 256 := by
  have htemp := hw _ (getD_mem_of_lt w [] (w.length - 1) (by omega))
  have hprev := hw _ (getD_mem_of_lt w [] (w.length - 8) (by omega))
  have hrcon : (rconWord (w.length / 8)).length = 4 ∧
      ∀ b ∈ rconWord (w.length / 8), b < 256 := by
    refine ⟨rfl, ?_⟩
    intro b hb
    simp only [rconWord, List.mem_cons, List.not_mem_nil, or_false] at hb
    rcases hb with rfl | rfl | rfl | rfl
    · exact gpow_lt 2 (by omega) _
    · omega
    · omega
    · omega
  have htemp2 : ∀ t2, t2.length = 4 → (∀ b ∈ t2, b < 256) →
      (zipXor (w.getD (w.length - 8) []) t2).length = 4 ∧
        ∀ b ∈ zipXor (w.getD (w.length - 8) []) t2, b < 256 := by
    intro t2 hl hb
    constructor
    · rw [zipXor_length, hprev.1, hl]
      simp
    · exact zipXor_lt _ _ hprev.2 hb
  unfold nextWord
  split
  · have hsr := subWord_ok _ (rotWord_ok _ htemp)
    have hzx : (zipXor (subWord (rotWord (w.getD (w.length - 1) [])))
        (rconWord (w.length / 8))).length = 4 ∧
        ∀ b ∈ zipXor (subWord (rotWord (w.getD (w.length - 1) [])))
          (rconWord (w.length / 8)), b < 256 := by
      constructor
      · rw [zipXor_length, hsr.1, hrcon.1]
        simp
      · exact zipXor_lt _ _ hsr.2 hrcon.2
    exact htemp2 _ hzx.1 hzx.2
  · split
    · have hsw := subWord_ok _ htemp
      exact htemp2 _ hsw.1 hsw.2
    · exact htemp2 _ htemp.1 htemp.2

theorem expandFrom_ok : ∀ (n : Nat) (w : List (List Nat)), wordsOk w →
    8 ≤ w.length →
    wordsOk (expandFrom n w) ∧ (expandFrom n w).length = w.length + n := by
  intro n
  induction n with
  | zero => intro w hw _; exact ⟨hw, rfl⟩
  | succ k ih =>
    intro w hw h8
    have hnw := nextWord_ok w hw h8
    have hw2 : wordsOk (w ++ [nextWord w]) := by
      intro x hx
      rcases List.mem_append.mp hx with hx | hx
      · exact hw x hx
      · rcases List.mem_singleton.mp hx with rfl
        exact hnw
    have h82 : 8 ≤ (w ++ [nextWord w]).length := by
      simp only [List.length_append, List.length_singleton]
      omega
    obtain ⟨ha, hb⟩ := ih _ hw2 h82
    refine ⟨ha, ?_⟩
    rw [expandFrom, hb]
    simp only [List.length_append, List.length_singleton]
    omega

theorem flatten_words_length (g : List (List Nat))
    (h : ∀ w ∈ g, w.length = 4) : g.flatten.length = 4 * g.length := by
  induction g with
  | nil => simp
  | cons w rest ih =>
    simp only [List.flatten_cons, List.length_append, List.length_cons]
    rw [h w (List.mem_cons_self _ _), ih (fun x hx => h x (List.mem_cons_of_mem _ hx))]
    ring

theorem roundKeys_ok (key : List Nat) (hk : key.length = 32)
    (hkb : ∀ b ∈ key, b < 256) :
    (roundKeys key).length = 15 ∧ ∀ rk ∈ roundKeys key, stateOk rk := by
  have hchunk := chunksOf4_ok 32 key (by omega) (by rw [hk]; omega)
  have hw0 : wordsOk (chunksOf 4 key) := by
    intro x hx
    obtain ⟨hxl, hxm⟩ := hchunk.2 x hx
    exact ⟨hxl, fun b hb => hkb b (hxm b hb)⟩
  have h80 : 8 ≤ (chunksOf 4 key).length := by
    have := hchunk.1
    omega
  obtain ⟨hewf, helen⟩ := expandFrom_ok 52 _ hw0 h80
  have h60 : (expandKey key).length = 60 := by
    rw [expandKey, helen]
    have := hchunk.1
    rw [hk] at this
    omega
  have hg := chunksOf4_ok 60 (expandKey key) (by omega) (by rw [h60]; omega)
  constructor
  · rw [roundKeys, List.length_map]
    have := hg.1
    rw [h60] at this
    omega
  · intro rk hrk
    simp only [roundKeys, List.mem_map] at hrk
    obtain ⟨g, hgmem, rfl⟩ := hrk
    obtain ⟨hgl, hgm⟩ := hg.2 g hgmem
    have hwords : ∀ w ∈ g, w.length = 4 ∧ ∀ b ∈ w, b < 256 :=
      fun w hw => hewf w (hgm w hw)
    constructor
    · rw [flatten_words_length g (fun w hw => (hwords w hw).1), hgl]
    · intro b hb
      rw [List.mem_flatten] at hb
      obtain ⟨w, hwmem, hbw⟩ := hb
      exact (hwords w hwmem).2 b hbw

/-! ## AES-GCM (NIST SP 800-38D)

`Manifest.encrypt_data` uses `AESGCM` from the `cryptography` library with a
96-bit nonce and no associated data; the AEAD ciphertext it returns is the
CTR-mode ciphertext followed by the 16-byte tag. -/

/-- Increment the low 32 bits of a 128-bit counter block by `i`. -/
def inc32 (x i : Nat) : Nat := x / 2 ^ 32 * 2 ^ 32 + (x % 2 ^ 32 + i) % 2 ^ 32

/-- GF(2^128) product (SP 800-38D §6.3): 128 shift-and-conditional-xor steps
with the reduction constant `0xE1` at the high byte, operating on 128-bit
big-endian block values. -/
def gf128mulAux : Nat → Nat → Nat → Nat → Nat
  | 0, _, _, z => z
  | fuel + 1, x, v, z =>
    gf128mulAux fuel x
      (if v % 2 = 1 then v / 2 ^^^ 0xE1000000000000000000000000000000 else v / 2)
      (if x.testBit fuel then z ^^^ v else z)

def gf128mul (x y : Nat) : Nat := gf128mulAux 128 x y 0

/-- GHASH over a list of 128-bit block values. -/
def ghash (h : Nat) (blocks : List Nat) : Nat :=
  blocks.foldl (fun y x => gf128mul (y ^^^ x) h) 0

/-- The GHASH input blocks for ciphertext `c` with empty associated data:
`c` zero-padded to a block multiple, then the 64-bit bit lengths
`len(A) = 0` and `len(C)` packed into the final block. -/
def gcmBlocks (c : List Nat) : List Nat :=
  (chunksOf 16 (c ++ List.replicate ((16 - c.length % 16) % 16) 0)).map
    fromBytesBE ++ [c.length * 8]

/-- CTR keystream for `n` bytes: blocks `E_K(inc32(J0, i + 1))`. -/
def gcmKeystream (key nonce : List Nat) (n : Nat) : List Nat :=
  (List.range ((n + 15) / 16)).flatMap fun i =>
    encryptBlock (roundKeys key)
      (toBytesBE 16 (inc32 (fromBytesBE nonce * 2 ^ 32 + 1) (i + 1)))

/-- The GCM authentication tag for ciphertext `ct`:
`E_K(J0) xor GHASH_H(pad(ct) || lens)` with `H = E_K(0^128)`. -/
def gcmTag (key nonce ct : List Nat) : List Nat :=
  toBytesBE 16
    (fromBytesBE (encryptBlock (roundKeys key)
        (toBytesBE 16 (fromBytesBE nonce * 2 ^ 32 + 1))) ^^^
      ghash (fromBytesBE (encryptBlock (roundKeys key) (List.replicate 16 0)))
        (gcmBlocks ct))

/-- `AESGCM(key).encrypt(nonce, pt, None)`: CTR ciphertext followed by the
16-byte tag. -/
def aesgcmEncrypt (key nonce pt : List Nat) : List Nat :=
  zipXor pt (gcmKeystream key nonce pt.length) ++
    gcmTag key nonce (zipXor pt (gcmKeystream key nonce pt.length))

/-- `AESGCM(key).decrypt(nonce, data, None)`: split off the 16-byte tag,
recompute it over the ciphertext, and fail (`InvalidTag`) on mismatch. -/
def aesgcmDecrypt (key nonce data : List Nat) : Option (List Nat) :=
  if data.length < 16 then none
  else if data.drop (data.length - 16) =
      gcmTag key nonce (data.take (data.length - 16)) then
    some (zipXor (data.take (data.length - 16))
      (gcmKeystream key nonce (data.take (data.length - 16)).length))
  else none

theorem flatMap_length_const (l : List Nat) (f : Nat → List Nat) (k : Nat)
    (h : ∀ x ∈ l, (f x).length = k) : (l.flatMap f).length = k * l.length := by
  induction l with
  | nil => simp
  | cons a rest ih =>
    simp only [List.flatMap_cons, List.length_append, List.length_cons,
      h a (List.mem_cons_self _ _),
      ih fun x hx => h x (List.mem_cons_of_mem _ hx)]
    ring

theorem encRounds_stateOk (rks : List (List Nat)) (s : List Nat)
    (hs : stateOk s) (hrk : ∀ rk ∈ rks, stateOk rk) :
    stateOk (encRounds rks s) := by
  induction rks generalizing s with
  | nil => exact hs
  | cons rk rest ih =>
    cases rest with
    | nil =>
      exact zipXor_stateOk _ _ (shiftRows_stateOk _ (subBytes_stateOk _ hs))
        (hrk rk (by simp))
    | cons rk2 rks2 =>
      exact ih _ (zipXor_stateOk _ _
          (mixColumns_stateOk _ (shiftRows_stateOk _ (subBytes_stateOk _ hs)))
          (hrk rk (by simp)))
        (fun r hr => hrk r (by simp [hr]))

theorem encryptBlock_stateOk (rks : List (List Nat)) (block : List Nat)
    (hb : stateOk block) (hrk : ∀ rk ∈ rks, stateOk rk) :
    stateOk (encryptBlock rks block) := by
  cases rks with
  | nil => exact hb
  | cons rk0 rest =>
    exact encRounds_stateOk rest _ (zipXor_stateOk _ _ hb (hrk rk0 (by simp)))
      (fun r hr => hrk r (by simp [hr]))

theorem gcmKeystream_length (key nonce : List Nat) (n : Nat)
    (hk : key.length = 32) (hkb : ∀ b ∈ key, b < 256) :
    (gcmKeystream key nonce n).length = 16 * ((n + 15) / 16) := by
  unfold gcmKeystream
  rw [flatMap_length_const _ _ 16, List.length_range]
  intro i _
  exact (encryptBlock_stateOk _ _ ⟨toBytesBE_length 16 _, toBytesBE_lt 16 _⟩
    (roundKeys_ok key hk hkb).2).1

theorem gcmKeystream_lt (key nonce : List Nat) (n : Nat)
    (hk : key.length = 32) (hkb : ∀ b ∈ key, b < 256) :
    ∀ b ∈ gcmKeystream key nonce n, b < 256 := by
  intro b hb
  unfold gcmKeystream at hb
  rw [List.mem_flatMap] at hb
  obtain ⟨i, _, hbi⟩ := hb
  exact (encryptBlock_stateOk _ _ ⟨toBytesBE_length 16 _, toBytesBE_lt 16 _⟩
    (roundKeys_ok key hk hkb).2).2 b hbi

theorem aesgcmDecrypt_aesgcmEncrypt (key nonce pt : List Nat)
    (hk : key.length = 32) (hkb : ∀ b ∈ key, b < 256)
    (hpt : ∀ b ∈ pt, b < 256) :
    aesgcmDecrypt key nonce (aesgcmEncrypt key nonce pt) = some pt := by
  have hkslen := gcmKeystream_length key nonce pt.length hk hkb
  have hge : pt.length ≤ (gcmKeystream key nonce pt.length).length := by
    rw [hkslen]
    omega
  have hct : (zipXor pt (gcmKeystream key nonce pt.length)).length =
      pt.length := by
    rw [zipXor_length]
    omega
  have htag : (gcmTag key nonce
      (zipXor pt (gcmKeystream key nonce pt.length))).length = 16 :=
    toBytesBE_length 16 _
  unfold aesgcmEncrypt aesgcmDecrypt
  have hlen : (zipXor pt (gcmKeystream key nonce pt.length) ++
      gcmTag key nonce (zipXor pt (gcmKeystream key nonce pt.length))).length =
      pt.length + 16 := by
    rw [List.length_append, hct, htag]
  rw [if_neg (by omega)]
  have hsub : (zipXor pt (gcmKeystream key nonce pt.length) ++
      gcmTag key nonce (zipXor pt (gcmKeystream key nonce pt.length))).length -
      16 = (zipXor pt (gcmKeystream key nonce pt.length)).length := by
    omega
  rw [hsub, take_append_of_length _ _ _ rfl, drop_append_of_length _ _ _ rfl,
    if_pos rfl, hct, zipXor_zipXor _ _ hge]

theorem aesgcmDecrypt_isSome_tag (key nonce data : List Nat)
    (h : (aesgcmDecrypt key nonce data).isSome) :
    data.drop (data.length - 16) =
      gcmTag key nonce (data.take (data.length - 16)) := by
  unfold aesgcmDecrypt at h
  by_cases h1 : data.length < 16
  · rw [if_pos h1] at h
    simp at h
  · rw [if_neg h1] at h
    by_cases h2 : data.drop (data.length - 16) =
        gcmTag key nonce (data.take (data.length - 16))
    · exact h2
    · rw [if_neg h2] at h
      simp at h

theorem aes256_inverse (key block : List Nat) (hk : key.length = 32)
    (hkb : ∀ b ∈ key, b < 256) (hb : stateOk block) :
    decryptBlock (roundKeys key) (encryptBlock (roundKeys key) block) =
      block :=
  decryptBlock_encryptBlock _ _ hb (roundKeys_ok key hk hkb).2


/-! ## Manifest vault encryption (`steam_guard.py` `Manifest.derive_key`,
`Manifest.encrypt_data`, `Manifest.decrypt_data`)

Strings are embedded at their UTF-8 byte level (`.encode()`/`.decode()`
boundaries); the random nonce is a parameter. -/

/-- `Manifest.derive_key`: PBKDF2-HMAC-SHA256, 100000 iterations, 32-byte
key from the password and the base64-decoded salt. -/
def derive_key (password : List Nat) (salt_b64 : List Char) :
    Option (List Nat) :=
  (b64decode salt_b64).map fun salt =>
    pbkdf2 hmacSha256 32 password salt 100000 32

/-- `Manifest.encrypt_data`: base64 of nonce plus the AEAD ciphertext
(CTR ciphertext followed by the 16-byte tag). -/
def encrypt_data (data password : List Nat) (salt_b64 : List Char)
    (nonce : List Nat) : Option (List Char) :=
  (derive_key password salt_b64).map fun key =>
    b64encode (nonce ++ aesgcmEncrypt key nonce data)

/-- `Manifest.decrypt_data`: base64-decode, split nonce `raw[:12]` from
ciphertext `raw[12:]`, AEAD-decrypt. -/
def decrypt_data (encrypted_b64 : List Char) (password : List Nat)
    (salt_b64 : List Char) : Option (List Nat) :=
  match derive_key password salt_b64, b64decode encrypted_b64 with
  | some key, some raw => aesgcmDecrypt key (raw.take 12) (raw.drop 12)
  | _, _ => none

theorem derive_key_ok (password salt : List Nat) (salt_b64 : List Char)
    (hsalt : b64decode salt_b64 = some salt) :
    ∃ key, derive_key password salt_b64 = some key ∧ key.length = 32 ∧
      ∀ b ∈ key, b < 256 := by
  refine ⟨pbkdf2 hmacSha256 32 password salt 100000 32, ?_, ?_, ?_⟩
  · rw [derive_key, hsalt]
    rfl
  · exact pbkdf2_length _ 32 _ _ _ _ (by omega) hmacSha256_length
  · exact pbkdf2_lt _ 32 _ _ _ _ hmacSha256_lt


/-- C7: for every plaintext, password and decodable salt, with a 12-byte
nonce, `decrypt_data (encrypt_data data) = data`; the blob is base64 of the
nonce followed by the GCM ciphertext-plus-16-byte-tag; and decryption under
any password returns a value only when the stored tag equals the GCM tag
recomputed under that password's key, so a wrong passkey fails closed via
the AEAD tag check. -/
theorem encrypt_data_decrypt_data (data password salt nonce : List Nat)
    (salt_b64 : List Char) (hsalt : b64decode salt_b64 = some salt)
    (hd : ∀ b ∈ data, b < 256) (hn : nonce.length = 12)
    (hnb : ∀ b ∈ nonce, b < 256) :
    (∃ (blob : List Char) (ctag : List Nat),
      encrypt_data data password salt_b64 nonce = some blob ∧
      b64decode blob = some (nonce ++ ctag) ∧
      ctag.length = data.length + 16 ∧
      decrypt_data blob password salt_b64 = some data) ∧
    ∀ (password2 : List Nat) (blob2 : List Char) (pt2 : List Nat),
      decrypt_data blob2 password2 salt_b64 = some pt2 →
      ∃ (key2 raw : List Nat),
        derive_key password2 salt_b64 = some key2 ∧
        b64decode blob2 = some raw ∧
        (raw.drop 12).drop ((raw.drop 12).length - 16) =
          gcmTag key2 (raw.take 12)
            ((raw.drop 12).take ((raw.drop 12).length - 16)) := by
  obtain ⟨key, hkey, hk32, hkb⟩ := derive_key_ok password salt salt_b64 hsalt
  have hab : ∀ b ∈ aesgcmEncrypt key nonce data, b < 256 := by
    intro b hb
    rw [aesgcmEncrypt] at hb
    rcases List.mem_append.mp hb with h | h
    · exact zipXor_lt _ _ hd (gcmKeystream_lt key nonce _ hk32 hkb) b h
    · rw [gcmTag] at h
      exact toBytesBE_lt 16 _ b h
  have hblobdec : b64decode (b64encode (nonce ++ aesgcmEncrypt key nonce data))
      = some (nonce ++ aesgcmEncrypt key nonce data) := by
    apply b64decode_b64encode
    intro b hb
    rcases List.mem_append.mp hb with h | h
    · exact hnb b h
    · exact hab b h
  constructor
  · refine ⟨b64encode (nonce ++ aesgcmEncrypt key nonce data),
      aesgcmEncrypt key nonce data, ?_, hblobdec, ?_, ?_⟩
    · rw [encrypt_data, hkey]
      rfl
    · rw [aesgcmEncrypt, List.length_append, zipXor_length,
        gcmKeystream_length key nonce _ hk32 hkb, gcmTag, toBytesBE_length]
      omega
    · simp only [decrypt_data, hkey, hblobdec]
      rw [take_append_of_length _ _ _ hn,
        drop_append_of_length _ _ _ hn]
      exact aesgcmDecrypt_aesgcmEncrypt key nonce data hk32 hkb hd
  · intro password2 blob2 pt2 hdec2
    obtain ⟨key2, hkey2, _, _⟩ := derive_key_ok password2 salt salt_b64 hsalt
    cases hraw : b64decode blob2 with
    | none => simp [decrypt_data, hkey2, hraw] at hdec2
    | some raw =>
      refine ⟨key2, raw, hkey2, rfl, ?_⟩
      apply aesgcmDecrypt_isSome_tag
      simp only [decrypt_data, hkey2, hraw] at hdec2
      rw [hdec2]
      rfl

/-- C7 witness: the theorem applied to empty plaintext, empty password,
the empty (decodable) salt and an all-zero 12-byte nonce. -/
theorem encrypt_data_decrypt_data_witness :
    (∃ (blob : List Char) (ctag : List Nat),
      encrypt_data [] [] [] (List.replicate 12 0) = some blob ∧
      b64decode blob = some (List.replicate 12 0 ++ ctag) ∧
      ctag.length = ([] : List Nat).length + 16 ∧
      decrypt_data blob [] [] = some []) ∧
    ∀ (password2 : List Nat) (blob2 : List Char) (pt2 : List Nat),
      decrypt_data blob2 password2 [] = some pt2 →
      ∃ (key2 raw : List Nat),
        derive_key password2 [] = some key2 ∧
        b64decode blob2 = some raw ∧
        (raw.drop 12).drop ((raw.drop 12).length - 16) =
          gcmTag key2 (raw.take 12)
            ((raw.drop 12).take ((raw.drop 12).length - 16)) :=
  encrypt_data_decrypt_data [] [] [] (List.replicate 12 0) [] rfl
    (by simp) (by simp) (by simp)


/-! ## SDA compatibility encryption (`sda_compat.py`)

PBKDF2-HMAC-SHA1 (50000 iterations) to a 32-byte key, AES-256-CBC with
PKCS7 padding; salt, IV and ciphertext travel base64-encoded. -/

/-- `derive_sda_key`: PBKDF2-HMAC-SHA1, 50000 iterations, 32-byte key. -/
def derive_sda_key (passkey : List Nat) (salt_b64 : List Char) :
    Option (List Nat) :=
  (b64decode salt_b64).map fun salt =>
    pbkdf2 hmacSha1 20 passkey salt 50000 32

/-- PKCS7 padding to the 16-byte block size. -/
def padPKCS7 (pt : List Nat) : List Nat :=
  pt ++ List.replicate (16 - pt.length % 16) (16 - pt.length % 16)

/-- PKCS7 unpadding: the last byte `p` must be in `1..16` and the last `p`
bytes must all equal `p`, otherwise the unpadder raises. -/
def unpadPKCS7 (padded : List Nat) : Option (List Nat) :=
  if 1 ≤ padded.getLastD 0 ∧ padded.getLastD 0 ≤ 16 ∧
      padded.getLastD 0 ≤ padded.length ∧
      padded.drop (padded.length - padded.getLastD 0) =
        List.replicate (padded.getLastD 0) (padded.getLastD 0) then
    some (padded.take (padded.length - padded.getLastD 0))
  else none

/-- CBC encryption over 16-byte blocks: `c_i = E_K(p_i xor c_(i-1))` with
`c_0` the IV. -/
def cbcEncryptBlocks (rks : List (List Nat)) (prev : List Nat) :
    List (List Nat) → List (List Nat)
  | [] => []
  | p :: ps =>
    encryptBlock rks (zipXor p prev) ::
      cbcEncryptBlocks rks (encryptBlock rks (zipXor p prev)) ps

/-- CBC decryption over 16-byte blocks: `p_i = D_K(c_i) xor c_(i-1)`. -/
def cbcDecryptBlocks (rks : List (List Nat)) (prev : List Nat) :
    List (List Nat) → List (List Nat)
  | [] => []
  | c :: cs => zipXor (decryptBlock rks c) prev :: cbcDecryptBlocks rks c cs

/-- `encrypt_sda_data`: pad, CBC-encrypt with the derived key and the
base64-decoded IV, base64-encode. -/
def encrypt_sda_data (passkey : List Nat) (salt_b64 iv_b64 : List Char)
    (plaintext : List Nat) : Option (List Char) :=
  match derive_sda_key passkey salt_b64, b64decode iv_b64 with
  | some key, some iv =>
    some (b64encode (cbcEncryptBlocks (roundKeys key) iv
      (chunksOf 16 (padPKCS7 plaintext))).flatten)
  | _, _ => none

/-- `decrypt_sda_data`: base64-decode, CBC-decrypt (the cipher requires a
block-multiple ciphertext), PKCS7-unpad; any failure yields `none`. -/
def decrypt_sda_data (passkey : List Nat) (salt_b64 iv_b64 encrypted_b64 :
    List Char) : Option (List Nat) :=
  match derive_sda_key passkey salt_b64, b64decode iv_b64,
      b64decode encrypted_b64 with
  | some key, some iv, some ct =>
    if ct.length % 16 = 0 then
      unpadPKCS7 (cbcDecryptBlocks (roundKeys key) iv (chunksOf 16 ct)).flatten
    else none
  | _, _, _ => none

theorem chunksOf_cons_eq (n : Nat) (l : List α) (hl : l ≠ []) :
    chunksOf (n + 1) l = l.take (n + 1) :: chunksOf (n + 1) (l.drop (n + 1)) := by
  cases l with
  | nil => simp at hl
  | cons a rest => rw [chunksOf]

theorem chunksOf_flatten_const {α : Type} (n : Nat) (g : List (List α))
    (h : ∀ w ∈ g, w.length = n + 1) : chunksOf (n + 1) g.flatten = g := by
  induction g with
  | nil => simp [chunksOf]
  | cons w rest ih =>
    have hw : w.length = n + 1 := h w (List.mem_cons_self _ _)
    have hwne : w ≠ [] := by
      intro he
      rw [he] at hw
      simp at hw
    rw [List.flatten_cons,
      chunksOf_cons_eq n _ (by simp [hwne]),
      take_append_of_length _ _ _ hw,
      drop_append_of_length _ _ _ hw,
      ih fun x hx => h x (List.mem_cons_of_mem _ hx)]

theorem chunksOf_ok16 : ∀ (k : Nat) (l : List Nat), l.length ≤ k →
    16 ∣ l.length →
    ∀ c ∈ chunksOf 16 l, c.length = 16 ∧ ∀ x ∈ c, x ∈ l := by
  intro k
  induction k with
  | zero =>
    intro l hk _
    have : l = [] := List.length_eq_zero.mp (by omega)
    subst this
    simp [chunksOf]
  | succ k ih =>
    intro l hk hdvd
    cases l with
    | nil => simp [chunksOf]
    | cons a rest =>
      have hlen16 : 16 ≤ (a :: rest).length := by
        rcases hdvd with ⟨m, hm⟩
        have hm1 : 1 ≤ m := by
          by_contra h
          have : m = 0 := by omega
          simp [this] at hm
        simp only [List.length_cons] at hm ⊢
        omega
      have hdrop : 16 ∣ ((a :: rest).drop 16).length := by
        rw [List.length_drop]
        exact Nat.dvd_sub' hdvd (Nat.dvd_refl _)
      have hdk : ((a :: rest).drop 16).length ≤ k := by
        rw [List.length_drop]
        simp only [List.length_cons] at hk ⊢
        omega
      rw [chunksOf_cons_eq 15 _ (by simp)]
      intro c hc
      rcases List.mem_cons.mp hc with rfl | hc2
      · refine ⟨by rw [List.length_take]; omega, ?_⟩
        intro x hx
        exact List.mem_of_mem_take hx
      · obtain ⟨hcl, hcm⟩ := ih _ hdk hdrop c hc2
        exact ⟨hcl, fun x hx => List.mem_of_mem_drop (hcm x hx)⟩

theorem cbcDecrypt_cbcEncrypt (rks : List (List Nat))
    (hrk : ∀ rk ∈ rks, stateOk rk) :
    ∀ (ps : List (List Nat)) (prev : List Nat), stateOk prev →
      (∀ p ∈ ps, stateOk p) →
      cbcDecryptBlocks rks prev (cbcEncryptBlocks rks prev ps) = ps := by
  intro ps
  induction ps with
  | nil => intro prev _ _; rfl
  | cons p rest ih =>
    intro prev hprev hps
    have hp : stateOk p := hps p (List.mem_cons_self _ _)
    have hxp : stateOk (zipXor p prev) := zipXor_stateOk _ _ hp hprev
    have hc : stateOk (encryptBlock rks (zipXor p prev)) :=
      encryptBlock_stateOk _ _ hxp hrk
    simp only [cbcEncryptBlocks, cbcDecryptBlocks]
    rw [decryptBlock_encryptBlock rks _ hxp hrk,
      zipXor_zipXor _ _ (by rw [hp.1, hprev.1]),
      ih _ hc fun q hq => hps q (List.mem_cons_of_mem _ hq)]

theorem cbcEncryptBlocks_stateOk (rks : List (List Nat))
    (hrk : ∀ rk ∈ rks, stateOk rk) :
    ∀ (ps : List (List Nat)) (prev : List Nat), stateOk prev →
      (∀ p ∈ ps, stateOk p) →
      ∀ c ∈ cbcEncryptBlocks rks prev ps, stateOk c := by
  intro ps
  induction ps with
  | nil => intro prev _ _ c hc; simp [cbcEncryptBlocks] at hc
  | cons p rest ih =>
    intro prev hprev hps c hc
    have hp : stateOk p := hps p (List.mem_cons_self _ _)
    have hxp : stateOk (zipXor p prev) := zipXor_stateOk _ _ hp hprev
    have henc : stateOk (encryptBlock rks (zipXor p prev)) :=
      encryptBlock_stateOk _ _ hxp hrk
    simp only [cbcEncryptBlocks] at hc
    rcases List.mem_cons.mp hc with rfl | hc2
    · exact henc
    · exact ih _ henc (fun q hq => hps q (List.mem_cons_of_mem _ hq)) c hc2

theorem padPKCS7_mod (pt : List Nat) : (padPKCS7 pt).length % 16 = 0 := by
  rw [padPKCS7, List.length_append, List.length_replicate]
  omega

theorem padPKCS7_lt (pt : List Nat) (hpt : ∀ b ∈ pt, b < 256) :
    ∀ b ∈ padPKCS7 pt, b < 256 := by
  intro b hb
  rcases List.mem_append.mp hb with h | h
  · exact hpt b h
  · rw [List.eq_of_mem_replicate h]
    omega

theorem unpadPKCS7_padPKCS7 (pt : List Nat) :
    unpadPKCS7 (padPKCS7 pt) = some pt := by
  have hp1 : 1 ≤ 16 - pt.length % 16 := by omega
  have hp16 : 16 - pt.length % 16 ≤ 16 := by omega
  have hlen : (padPKCS7 pt).length = pt.length + (16 - pt.length % 16) := by
    rw [padPKCS7, List.length_append, List.length_replicate]
  have hlast : (padPKCS7 pt).getLastD 0 = 16 - pt.length % 16 := by
    rw [padPKCS7, show List.replicate (16 - pt.length % 16)
        (16 - pt.length % 16) = List.replicate (16 - pt.length % 16 - 1)
        (16 - pt.length % 16) ++ [16 - pt.length % 16] by
      rw [← List.replicate_succ']
      congr 1
      omega]
    rw [← List.append_assoc]
    exact List.getLastD_concat _ _ _
  have hsub : (padPKCS7 pt).length - (16 - pt.length % 16) = pt.length := by
    omega
  rw [unpadPKCS7, hlast, if_pos]
  · rw [hsub, padPKCS7, take_append_of_length _ _ _ rfl]
  · refine ⟨hp1, hp16, by omega, ?_⟩
    rw [hsub, padPKCS7, drop_append_of_length _ _ _ rfl]


theorem flatten_chunksOf (n : Nat) : ∀ (k : Nat) (l : List α),
    l.length ≤ k → (chunksOf (n + 1) l).flatten = l := by
  intro k
  induction k with
  | zero =>
    intro l hk
    have : l = [] := List.length_eq_zero.mp (by omega)
    subst this
    simp [chunksOf]
  | succ k ih =>
    intro l hk
    cases l with
    | nil => simp [chunksOf]
    | cons a rest =>
      rw [chunksOf_cons_eq n _ (by simp), List.flatten_cons,
        ih ((a :: rest).drop (n + 1)) (by
          rw [List.length_drop]
          simp only [List.length_cons] at hk ⊢
          omega),
        List.take_append_drop]

theorem flatten_words16_length (g : List (List Nat))
    (h : ∀ w ∈ g, w.length = 16) : g.flatten.length = 16 * g.length := by
  induction g with
  | nil => simp
  | cons w rest ih =>
    simp only [List.flatten_cons, List.length_append, List.length_cons,
      h w (List.mem_cons_self _ _),
      ih fun x hx => h x (List.mem_cons_of_mem _ hx)]
    ring

theorem derive_sda_key_ok (passkey salt : List Nat) (salt_b64 : List Char)
    (hsalt : b64decode salt_b64 = some salt) :
    ∃ key, derive_sda_key passkey salt_b64 = some key ∧ key.length = 32 ∧
      ∀ b ∈ key, b < 256 := by
  refine ⟨pbkdf2 hmacSha1 20 passkey salt 50000 32, ?_, ?_, ?_⟩
  · rw [derive_sda_key, hsalt]
    rfl
  · exact pbkdf2_length _ 20 _ _ _ _ (by omega) hmacSha1_length
  · exact pbkdf2_lt _ 20 _ _ _ _ hmacSha1_lt

/-- C8: for every plaintext, passkey, decodable salt and decodable 16-byte
IV, `decrypt_sda_data (encrypt_sda_data pt) = pt`; and decryption under any
passkey returns a value only when the ciphertext is a block multiple and
the CBC-decrypted bytes end in valid PKCS7 padding, which is stripped — a
wrong passkey yields `none` unless its garbage plaintext happens to end in
a valid padding tail. -/
theorem decrypt_encrypt_sda_data (passkey pt salt iv : List Nat)
    (salt_b64 iv_b64 : List Char)
    (hsalt : b64decode salt_b64 = some salt)
    (hiv : b64decode iv_b64 = some iv) (hivlen : iv.length = 16)
    (hivb : ∀ b ∈ iv, b < 256) (hpt : ∀ b ∈ pt, b < 256) :
    (∃ blob, encrypt_sda_data passkey salt_b64 iv_b64 pt = some blob ∧
      decrypt_sda_data passkey salt_b64 iv_b64 blob = some pt) ∧
    ∀ (passkey2 pt2 : List Nat) (blob2 : List Char),
      decrypt_sda_data passkey2 salt_b64 iv_b64 blob2 = some pt2 →
      ∃ (key2 ct padded : List Nat) (p : Nat),
        derive_sda_key passkey2 salt_b64 = some key2 ∧
        b64decode blob2 = some ct ∧
        ct.length % 16 = 0 ∧
        padded =
          (cbcDecryptBlocks (roundKeys key2) iv (chunksOf 16 ct)).flatten ∧
        p = padded.getLastD 0 ∧ 1 ≤ p ∧ p ≤ 16 ∧
        padded.drop (padded.length - p) = List.replicate p p ∧
        pt2 = padded.take (padded.length - p) := by
  obtain ⟨key, hkey, hk32, hkb⟩ := derive_sda_key_ok passkey salt salt_b64 hsalt
  have hrks := (roundKeys_ok key hk32 hkb).2
  have hivok : stateOk iv := ⟨hivlen, hivb⟩
  have hpad16 : 16 ∣ (padPKCS7 pt).length :=
    Nat.dvd_of_mod_eq_zero (padPKCS7_mod pt)
  have hblocks : ∀ c ∈ chunksOf 16 (padPKCS7 pt), stateOk c := by
    intro c hc
    obtain ⟨hcl, hcm⟩ := chunksOf_ok16 (padPKCS7 pt).length _ (le_refl _)
      hpad16 c hc
    exact ⟨hcl, fun b hb => padPKCS7_lt pt hpt b (hcm b hb)⟩
  have hencOk : ∀ c ∈ cbcEncryptBlocks (roundKeys key) iv
      (chunksOf 16 (padPKCS7 pt)), stateOk c :=
    cbcEncryptBlocks_stateOk _ hrks _ _ hivok hblocks
  have hctb : ∀ b ∈ (cbcEncryptBlocks (roundKeys key) iv
      (chunksOf 16 (padPKCS7 pt))).flatten, b < 256 := by
    intro b hb
    rw [List.mem_flatten] at hb
    obtain ⟨c, hcmem, hbc⟩ := hb
    exact (hencOk c hcmem).2 b hbc
  have hctlen : (cbcEncryptBlocks (roundKeys key) iv
      (chunksOf 16 (padPKCS7 pt))).flatten.length % 16 = 0 := by
    rw [flatten_words16_length _ fun c hc => (hencOk c hc).1]
    omega
  constructor
  · refine ⟨b64encode (cbcEncryptBlocks (roundKeys key) iv
      (chunksOf 16 (padPKCS7 pt))).flatten, ?_, ?_⟩
    · rw [encrypt_sda_data, hkey, hiv]
    · rw [decrypt_sda_data, hkey, hiv, b64decode_b64encode _ hctb]
      simp only [if_pos hctlen]
      rw [chunksOf_flatten_const 15 _ fun c hc => (hencOk c hc).1,
        cbcDecrypt_cbcEncrypt _ hrks _ _ hivok hblocks,
        flatten_chunksOf 15 (padPKCS7 pt).length _ (le_refl _),
        unpadPKCS7_padPKCS7]
  · intro passkey2 pt2 blob2 hdec2
    obtain ⟨key2, hkey2, _, _⟩ :=
      derive_sda_key_ok passkey2 salt salt_b64 hsalt
    cases hraw : b64decode blob2 with
    | none => simp [decrypt_sda_data, hkey2, hiv, hraw] at hdec2
    | some ct =>
      simp only [decrypt_sda_data, hkey2, hiv, hraw] at hdec2
      by_cases hmod : ct.length % 16 = 0
      · rw [if_pos hmod] at hdec2
        rw [unpadPKCS7] at hdec2
        by_cases hcond : 1 ≤ ((cbcDecryptBlocks (roundKeys key2) iv
              (chunksOf 16 ct)).flatten).getLastD 0 ∧
            ((cbcDecryptBlocks (roundKeys key2) iv
              (chunksOf 16 ct)).flatten).getLastD 0 ≤ 16 ∧
            ((cbcDecryptBlocks (roundKeys key2) iv
              (chunksOf 16 ct)).flatten).getLastD 0 ≤
              ((cbcDecryptBlocks (roundKeys key2) iv
                (chunksOf 16 ct)).flatten).length ∧
            ((cbcDecryptBlocks (roundKeys key2) iv
              (chunksOf 16 ct)).flatten).drop
              (((cbcDecryptBlocks (roundKeys key2) iv
                (chunksOf 16 ct)).flatten).length -
                ((cbcDecryptBlocks (roundKeys key2) iv
                  (chunksOf 16 ct)).flatten).getLastD 0) =
              List.replicate (((cbcDecryptBlocks (roundKeys key2) iv
                  (chunksOf 16 ct)).flatten).getLastD 0)
                (((cbcDecryptBlocks (roundKeys key2) iv
                  (chunksOf 16 ct)).flatten).getLastD 0)
        · rw [if_pos hcond] at hdec2
          obtain ⟨h1, h2, _, h4⟩ := hcond
          exact ⟨key2, ct,
            (cbcDecryptBlocks (roundKeys key2) iv (chunksOf 16 ct)).flatten,
            ((cbcDecryptBlocks (roundKeys key2) iv
              (chunksOf 16 ct)).flatten).getLastD 0,
            hkey2, rfl, hmod, rfl, rfl, h1, h2, h4,
            (Option.some.injEq _ _).mp hdec2.symm⟩
        · rw [if_neg hcond] at hdec2
          simp at hdec2
      · rw [if_neg hmod] at hdec2
        simp at hdec2

/-- C8 witness: the theorem applied to empty plaintext and passkey, the
empty (decodable) salt and the base64 all-zero 16-byte IV. -/
theorem decrypt_encrypt_sda_data_witness :
    (∃ blob, encrypt_sda_data [] [] "AAAAAAAAAAAAAAAAAAAAAA==".toList [] =
        some blob ∧
      decrypt_sda_data [] [] "AAAAAAAAAAAAAAAAAAAAAA==".toList blob =
        some []) ∧
    ∀ (passkey2 pt2 : List Nat) (blob2 : List Char),
      decrypt_sda_data passkey2 [] "AAAAAAAAAAAAAAAAAAAAAA==".toList blob2 =
        some pt2 →
      ∃ (key2 ct padded : List Nat) (p : Nat),
        derive_sda_key passkey2 [] = some key2 ∧
        b64decode blob2 = some ct ∧
        ct.length % 16 = 0 ∧
        padded =
          (cbcDecryptBlocks (roundKeys key2) (List.replicate 16 0)
            (chunksOf 16 ct)).flatten ∧
        p = padded.getLastD 0 ∧ 1 ≤ p ∧ p ≤ 16 ∧
        padded.drop (padded.length - p) = List.replicate p p ∧
        pt2 = padded.take (padded.length - p) :=
  decrypt_encrypt_sda_data [] [] [] (List.replicate 16 0)
    [] "AAAAAAAAAAAAAAAAAAAAAA==".toList rfl (by decide) (by decide)
    (by decide) (by simp)

end SteamAuth
